import Mathlib

/-!
Verification of the web-analyzer plugin's caching and analysis pipeline.

This file gives a shallow embedding, in Lean, of the parts of the repository
relevant to the studied properties:

* `core/screenshot_temp_manager.py` — the TTL + LRU screenshot temp-file
  manager (`ScreenshotTempManager`): its in-memory LRU cache
  (`get_from_memory` / `put_to_memory` / `_ensure_cache_size`), the reaper
  (`_cleanup_expired_files` / `_remove_file`) and `get_or_create_temp_path`.
* `core/error_handler.py` — `ErrorHandler.handle_error` / `get_error_type`
  together with the `ERROR_MESSAGES` table of `core/constants.py`.
* `core/message_handler.py` — `MessageHandler.check_cache`,
  `process_single_url`, `_process_screenshot_only`, `_generate_screenshot`,
  `_generate_screenshot_for_only_mode` and the concurrency-slot handling.

Python `bytes` values are modelled as `List Nat`, Python strings as Lean
`String`, dictionaries with a known field set as structures, exceptions as
an explicit `Except` layer, and the behaviour of external collaborators
(HTTP fetcher, content extractor, LLM, screenshot capture, cache backend,
disk) as an `Oracle` of functions that may either return a value or raise.
Wall-clock time is a `Nat` parameter; the file system is a list of paths.
-/

/-- Python `bytes` values, as lists of byte codes.  An empty list models
`b""`, which is falsy in Python. -/
abbrev Bytes := List Nat

deriving instance DecidableEq for Except

/-- Truthiness of an optional bytes value (`if screenshot:` in Python):
`None` and `b""` are falsy. -/
def bytesTruthy : Option Bytes → Bool
  | none => false
  | some b => !b.isEmpty

/-- ASCII lower-casing of a single character (the effect of Python's
`str.lower` on ASCII input). -/
def asciiLower (c : Char) : Char :=
  if 65 ≤ c.toNat ∧ c.toNat ≤ 90 then Char.ofNat (c.toNat + 32) else c

/-- ASCII upper-casing of a single character (the effect of Python's
`str.upper` on ASCII input). -/
def asciiUpper (c : Char) : Char :=
  if 97 ≤ c.toNat ∧ c.toNat ≤ 122 then Char.ofNat (c.toNat - 32) else c

/-- Lower-case a whole string, character-wise (ASCII). -/
def asciiLowerStr (s : String) : String := ⟨s.data.map asciiLower⟩

/-- Upper-case a whole string, character-wise (ASCII). -/
def asciiUpperStr (s : String) : String := ⟨s.data.map asciiUpper⟩

/-- Does list `l` start with list `p`? -/
def startsWithL : List Char → List Char → Bool
  | _, [] => true
  | [], _ :: _ => false
  | a :: as, b :: bs => a = b && startsWithL as bs

/-- Substring test on character lists (Python's `needle in haystack`). -/
def containsL : List Char → List Char → Bool
  | [], n => n.isEmpty
  | a :: as, n => startsWithL (a :: as) n || containsL as n

/-- Substring test on strings (Python's `sub in s`). -/
def strContains (s sub : String) : Bool := containsL s.data sub.data

/-- Lower-case every character before the third `/` of a URL string: for a
string of shape `scheme://host/rest` this lower-cases exactly the scheme
and the host and leaves the rest untouched.  `n` counts the slashes seen
so far. -/
def lowerHostPart (n : Nat) : List Char → List Char
  | [] => []
  | c :: cs =>
    if c = '/' then
      if 3 ≤ n + 1 then c :: cs else c :: lowerHostPart (n + 1) cs
    else
      asciiLower c :: lowerHostPart n cs

/-- Modelled from the spec: `normalize_url` lives in the analyzer module
(`core/analyzer.py` / `core/utils.py`), which is not part of the studied
sources; §4.1 of the design describes it as lower-casing the scheme and
host of the URL (its implementation-defined removal of tracking query
parameters and default ports is not modelled, as it does not touch the
suffix-based cache keys studied here). It is idempotent. -/
def normalizeUrl (s : String) : String := ⟨lowerHostPart 0 s.data⟩

/-! ### ScreenshotTempManager: in-memory LRU cache

The memory cache is Python's `OrderedDict[str, bytes]`, modelled as an
association list whose head is the least-recently-used entry and whose
tail end is the most recently used one.  Keys are URL hashes; the hash
function (`_get_url_hash`, MD5 in the source) is an abstract parameter. -/

/-- One memory-cache state: association list, oldest entry first. -/
abbrev MemCache := List (String × Bytes)

/-- Key lookup in an ordered dict (`url_hash in self._memory_cache` /
`self._memory_cache[url_hash]`). -/
def odLookup : MemCache → String → Option Bytes
  | [], _ => none
  | p :: tl, k => if p.1 = k then some p.2 else odLookup tl k

/-- `OrderedDict.__setitem__`: replace in place when the key exists
(keeping its position), otherwise append at the most-recent end. -/
def odInsert : MemCache → String → Bytes → MemCache
  | [], k, v => [(k, v)]
  | p :: tl, k, v => if p.1 = k then (k, v) :: tl else p :: odInsert tl k v

/-- `OrderedDict.move_to_end`: move an existing key to the most-recent
end, keeping its value; no effect when the key is absent. -/
def odMoveToEnd : MemCache → String → MemCache
  | [], _ => []
  | p :: tl, k => if p.1 = k then tl ++ [p] else p :: odMoveToEnd tl k

/-- `ScreenshotTempManager._update_lru_cache`: move the hash to the
most-recent end when present. -/
def updateLruCache (c : MemCache) (urlHash : String) : MemCache :=
  match odLookup c urlHash with
  | some _ => odMoveToEnd c urlHash
  | none => c

/-- `ScreenshotTempManager._ensure_cache_size`: pop least-recently-used
entries while the cache size is at or above `maxMemoryCache`.  Python's
`popitem(last=False)` raises `KeyError` on an empty dict (possible only
when `maxMemoryCache = 0`); the error value carries the cache state at
the moment the exception is raised. -/
def ensureCacheSize (maxMemoryCache : Nat) : MemCache → Except MemCache MemCache
  | [] => if maxMemoryCache = 0 then .error [] else .ok []
  | p :: tl =>
    if maxMemoryCache ≤ tl.length + 1 then ensureCacheSize maxMemoryCache tl
    else .ok (p :: tl)

/-- `ScreenshotTempManager.put_to_memory`: first make room, then insert
under the URL's hash.  An uncaught `KeyError` from `_ensure_cache_size`
propagates, leaving the cache in the mutated state. -/
def putToMemory (maxMemoryCache : Nat) (hash : String → String)
    (url : String) (screenshot : Bytes) (c : MemCache) : Except MemCache MemCache :=
  match ensureCacheSize maxMemoryCache c with
  | .error c' => .error c'
  | .ok c' => .ok (odInsert c' (hash url) screenshot)

/-- `ScreenshotTempManager.get_from_memory`: on a hit, refresh the LRU
order and return the stored bytes; on a miss return `None`.  The result
pairs the returned value with the updated cache state. -/
def getFromMemory (hash : String → String) (url : String) (c : MemCache) :
    Option Bytes × MemCache :=
  match odLookup c (hash url) with
  | some b => (some b, updateLruCache c (hash url))
  | none => (none, c)

/-- One public memory-cache operation. -/
inductive MemOp where
  | put (url : String) (screenshot : Bytes)
  | get (url : String)

/-- Run one operation against a cache state, keeping the state reached
even when `put` raises (the manager object survives the exception). -/
def runMemOp (maxMemoryCache : Nat) (hash : String → String)
    (c : MemCache) : MemOp → MemCache
  | .put url b =>
    match putToMemory maxMemoryCache hash url b c with
    | .ok c' => c'
    | .error c' => c'
  | .get url => (getFromMemory hash url c).2

/-- Run a sequence of operations from a given state. -/
def runMemOps (maxMemoryCache : Nat) (hash : String → String)
    (c : MemCache) (ops : List MemOp) : MemCache :=
  ops.foldl (runMemOp maxMemoryCache hash) c

/-! ### ScreenshotTempManager: file metadata, reaper, temp paths

`_file_metadata` is `{url_hash: {"path": str, "created_at": float}}`; the
on-disk state is the set of existing file paths.  `os.remove` failures are
modelled by a predicate `unlinkFails` on paths. -/

/-- One `_file_metadata` record. -/
structure FileMeta where
  path : String
  createdAt : Nat
deriving DecidableEq, Repr

/-- The manager state touched by the reaper: the file-metadata map, the
in-memory LRU cache, and the set of files existing on disk. -/
structure TmpState where
  fileMetadata : List (String × FileMeta)
  memoryCache : MemCache
  disk : List String
deriving DecidableEq, Repr

/-- Association-list lookup for the metadata map. -/
def fmLookup : List (String × FileMeta) → String → Option FileMeta
  | [], _ => none
  | p :: tl, k => if p.1 = k then some p.2 else fmLookup tl k

/-- Delete every entry of an association list with the given key
(Python `del d[k]`; keys are unique in a dict, so at most one). -/
def fmErase (l : List (String × FileMeta)) (k : String) : List (String × FileMeta) :=
  l.filter (fun p => p.1 ≠ k)

/-- Delete a key from the memory cache (`del self._memory_cache[k]`). -/
def mcErase (c : MemCache) (k : String) : MemCache :=
  c.filter (fun p => p.1 ≠ k)

/-- `ScreenshotTempManager._remove_file`: if the hash is untracked, return
unchanged.  Otherwise try to unlink the file (`os.remove` only when the
path exists; a raised exception is caught and logged) and in the `finally`
block delete the hash from the metadata map and from the memory cache.
The function never raises. -/
def removeFile (unlinkFails : String → Bool) (urlHash : String) (st : TmpState) : TmpState :=
  match fmLookup st.fileMetadata urlHash with
  | none => st
  | some meta =>
    let disk' :=
      if st.disk.contains meta.path then
        if unlinkFails meta.path then st.disk else st.disk.filter (fun p => p ≠ meta.path)
      else st.disk
    { fileMetadata := fmErase st.fileMetadata urlHash
      memoryCache := mcErase st.memoryCache urlHash
      disk := disk' }

/-- The expiry test of `_cleanup_expired_files`:
`current_time - metadata["created_at"] > self.ttl`. -/
def isExpired (currentTime ttl : Nat) (meta : FileMeta) : Bool :=
  ttl < currentTime - meta.createdAt

/-- `ScreenshotTempManager._cleanup_expired_files`: collect the hashes of
all expired records, then remove each one in turn. -/
def cleanupExpiredFiles (unlinkFails : String → Bool) (currentTime ttl : Nat)
    (st : TmpState) : TmpState :=
  let expired := (st.fileMetadata.filter (fun p => isExpired currentTime ttl p.2)).map (·.1)
  expired.foldl (fun s h => removeFile unlinkFails h s) st

/-- State touched by `get_or_create_temp_path`: the memory cache and the
set of files existing in the cache directory. -/
structure TempPathState where
  mem : MemCache
  disk : List String
deriving DecidableEq, Repr

/-- The cache-file path `os.path.join(cache_dir, f"{url_hash}_screenshot.bin")`
used by `get_or_create_temp_path`, with a falsy `cache_dir` replaced by
the manager's temp directory. -/
def tempCachePath (hash : String → String) (tempDir : String)
    (cacheDir : Option String) (url : String) : String :=
  let dir := match cacheDir with
    | none => tempDir
    | some d => if d = "" then tempDir else d
  dir ++ "/" ++ hash url ++ "_screenshot.bin"

/-- `ScreenshotTempManager.get_or_create_temp_path`.  `writeFails` models
an exception raised while opening or writing the cache file; `hash` is
`_get_url_hash`.  An existing cache file is returned directly (refreshing
the memory cache when truthy screenshot bytes were supplied — a raised
`KeyError` from `put_to_memory` is uncaught on this branch); otherwise
truthy bytes are written to a fresh cache file whose path is returned,
with any exception inside the `try` block caught, returning `None`. -/
def getOrCreateTempPath (maxMemoryCache : Nat) (hash : String → String)
    (writeFails : String → Bool) (tempDir : String) (url : String)
    (screenshot : Option Bytes) (cacheDir : Option String)
    (st : TempPathState) : Except Unit (Option String) × TempPathState :=
  if st.disk.contains (tempCachePath hash tempDir cacheDir url) then
    if bytesTruthy screenshot then
      match putToMemory maxMemoryCache hash url (screenshot.getD []) st.mem with
      | .ok m' => (.ok (some (tempCachePath hash tempDir cacheDir url)), { st with mem := m' })
      | .error m' => (.error (), { st with mem := m' })
    else (.ok (some (tempCachePath hash tempDir cacheDir url)), st)
  else
    if bytesTruthy screenshot then
      if writeFails (tempCachePath hash tempDir cacheDir url) then (.ok none, st)
      else
        match putToMemory maxMemoryCache hash url (screenshot.getD []) st.mem with
        | .ok m' =>
          (.ok (some (tempCachePath hash tempDir cacheDir url)),
            { st with mem := m', disk := tempCachePath hash tempDir cacheDir url :: st.disk })
        | .error m' =>
          (.ok none,
            { st with mem := m', disk := tempCachePath hash tempDir cacheDir url :: st.disk })
    else (.ok none, st)

/-! ### ErrorHandler and the ERROR_MESSAGES table

A raised Python exception is modelled by its type name, its `str()`
rendering, and flags for the `httpx` `isinstance` checks used by
`ErrorHandler._check_network_errors`. -/

/-- A Python exception value as seen by `ErrorHandler`. -/
structure PyExc where
  typeName : String
  strE : String
  isHttpError : Bool
  isTimeoutExc : Bool
  isConnectError : Bool
deriving DecidableEq, Repr

/-- One entry of `ERROR_MESSAGES`: message, solution, severity. -/
structure ErrCfg where
  message : String
  solution : String
  severity : String
deriving DecidableEq, Repr

/-- The `ERROR_MESSAGES` table of `core/constants.py`, with
`ERROR_MESSAGES.get(error_type, ERROR_MESSAGES["unknown_error"])`
defaulting built in. -/
def errorMessageFor (t : String) : ErrCfg :=
  if t = "network_error" then ⟨"网络请求失败", "请检查网络连接或URL是否正确，或尝试调整请求超时设置", "error"⟩
  else if t = "network_timeout" then ⟨"网络请求超时", "目标网站响应缓慢，请稍后重试或调整请求超时设置", "error"⟩
  else if t = "network_connection" then ⟨"网络连接失败", "无法连接到服务器，请检查网络连接或目标网站是否可访问", "error"⟩
  else if t = "parsing_error" then ⟨"网页内容解析失败", "该网页结构可能较为特殊，建议尝试其他分析方式", "warning"⟩
  else if t = "content_empty" then ⟨"提取的内容为空", "目标网页可能没有可提取的内容，或内容格式不支持", "warning"⟩
  else if t = "html_parsing" then ⟨"HTML解析错误", "网页HTML格式异常，无法正确解析", "error"⟩
  else if t = "llm_error" then ⟨"大语言模型分析失败", "请检查LLM配置是否正确，或尝试调整分析参数", "error"⟩
  else if t = "llm_timeout" then ⟨"大语言模型响应超时", "LLM响应缓慢，请稍后重试或调整LLM超时设置", "error"⟩
  else if t = "llm_invalid_response" then ⟨"大语言模型返回无效响应", "LLM返回格式异常，请检查LLM配置或稍后重试", "error"⟩
  else if t = "llm_permission" then ⟨"大语言模型权限不足", "请检查LLM API密钥或权限配置", "error"⟩
  else if t = "screenshot_error" then ⟨"网页截图失败", "请检查浏览器配置或网络连接，或尝试调整截图参数", "warning"⟩
  else if t = "browser_error" then ⟨"浏览器操作失败", "浏览器初始化或操作失败，请检查浏览器配置或重启插件", "error"⟩
  else if t = "cache_error" then ⟨"缓存操作失败", "请检查缓存目录权限或存储空间", "warning"⟩
  else if t = "cache_write" then ⟨"缓存写入失败", "无法写入缓存文件，请检查缓存目录权限或存储空间", "warning"⟩
  else if t = "cache_read" then ⟨"缓存读取失败", "无法读取缓存文件，缓存可能已损坏", "warning"⟩
  else if t = "config_error" then ⟨"配置错误", "请检查插件配置是否正确，或尝试重置配置", "error"⟩
  else if t = "config_invalid" then ⟨"配置无效", "插件配置格式无效，请检查配置项是否正确", "error"⟩
  else if t = "permission_error" then ⟨"权限不足", "请检查插件权限配置，或联系管理员获取权限", "error"⟩
  else if t = "domain_blocked" then ⟨"域名被阻止", "该域名已被加入黑名单，无法访问", "error"⟩
  else if t = "internal_error" then ⟨"内部错误", "插件内部发生错误，请检查日志或联系开发者", "critical"⟩
  else ⟨"未知错误", "请检查日志获取详细信息，或尝试重启插件", "critical"⟩

/-- `ErrorHandler._build_user_message`: the user-facing error text.
`error_detail` is `str(original_error)` truncated to 100 characters; the
error-type and severity lines appear only for `error`/`critical`
severities; `None` lines are filtered out before joining. -/
def buildUserMessage (message : String) (url : Option String) (e : PyExc)
    (solution errorType severity : String) : String :=
  let errorDetail :=
    if 100 < e.strE.length then ⟨e.strE.data.take 100⟩ ++ "..." else e.strE
  let lines : List (Option String) :=
    [some ("❌ " ++ message),
     url.map (fun u => "🔗 相关链接: " ++ u),
     some ("📋 错误详情: " ++ errorDetail),
     some ("💡 建议解决方案: " ++ solution)] ++
    (if severity = "error" ∨ severity = "critical" then
       [some ("⚠️  错误类型: " ++ errorType), some ("🔴 严重程度: " ++ asciiUpperStr severity)]
     else [])
  String.intercalate "\n" (lines.filterMap id)

/-- `ErrorHandler.handle_error`: pick the configuration for the error
type (default `unknown_error`), log (a side effect, not modelled), and
build the user message. -/
def handleError (errorType : String) (e : PyExc) (url : Option String) : String :=
  let cfg := errorMessageFor errorType
  buildUserMessage cfg.message url e cfg.solution errorType cfg.severity

/-- `ErrorHandler._check_network_errors`. -/
def checkNetworkErrors (e : PyExc) (tl ml : String) : Option String :=
  if e.isHttpError then
    if e.isTimeoutExc then some "network_timeout"
    else if e.isConnectError then some "network_connection"
    else some "network_error"
  else if strContains tl "timeout" || strContains ml "timeout" then some "network_timeout"
  else if strContains tl "connect" || strContains ml "connection" then some "network_connection"
  else if strContains tl "network" || strContains tl "http" then some "network_error"
  else none

/-- `ErrorHandler._check_parsing_errors`. -/
def checkParsingErrors (tl ml : String) : Option String :=
  if strContains tl "parse" || strContains tl "soup" || strContains tl "lxml" then
    some "html_parsing"
  else if strContains ml "empty" || strContains ml "none" || strContains ml "null" then
    some "content_empty"
  else if strContains ml "parse" then some "parsing_error"
  else none

/-- `ErrorHandler._check_llm_errors`. -/
def checkLlmErrors (tl ml : String) : Option String :=
  if strContains tl "llm" || strContains ml "llm" then some "llm_error"
  else if strContains tl "generate" || strContains ml "generate" then some "llm_error"
  else if strContains ml "timeout" && strContains ml "llm" then some "llm_timeout"
  else if strContains ml "invalid" || strContains ml "format" then some "llm_invalid_response"
  else if strContains ml "permission" || strContains ml "auth" || strContains ml "key" then
    some "llm_permission"
  else none

/-- `ErrorHandler._check_screenshot_errors`. -/
def checkScreenshotErrors (tl ml : String) : Option String :=
  if strContains tl "screenshot" || strContains ml "screenshot" then some "screenshot_error"
  else if strContains tl "browser" || strContains tl "playwright" then some "browser_error"
  else none

/-- `ErrorHandler._check_cache_errors`. -/
def checkCacheErrors (tl ml : String) : Option String :=
  if strContains tl "cache" || strContains ml "cache" then some "cache_error"
  else if strContains ml "write" || strContains ml "save" then some "cache_write"
  else if strContains ml "read" || strContains ml "load" then some "cache_read"
  else none

/-- `ErrorHandler._check_config_errors`. -/
def checkConfigErrors (tl ml : String) : Option String :=
  if strContains tl "config" || strContains tl "setting" then some "config_error"
  else if strContains ml "invalid" then some "config_invalid"
  else none

/-- `ErrorHandler._check_permission_errors`. -/
def checkPermissionErrors (tl ml : String) : Option String :=
  if strContains tl "permission" || strContains tl "auth" then some "permission_error"
  else if strContains ml "blocked" || strContains ml "deny" then some "domain_blocked"
  else none

/-- `ErrorHandler._check_other_errors`. -/
def checkOtherErrors (tl ml : String) : Option String :=
  if strContains tl "internal" || strContains ml "internal" then some "internal_error"
  else none

/-- `ErrorHandler.get_error_type`: classify an exception by its type name
and message (both lower-cased), falling back to `unknown_error`. -/
def getErrorType (e : PyExc) : String :=
  let tl := asciiLowerStr e.typeName
  let ml := asciiLowerStr e.strE
  (((((((checkNetworkErrors e tl ml).or
    (checkParsingErrors tl ml)).or
    (checkLlmErrors tl ml)).or
    (checkScreenshotErrors tl ml)).or
    (checkCacheErrors tl ml)).or
    ((checkConfigErrors tl ml).or
      ((checkPermissionErrors tl ml).or
        (checkOtherErrors tl ml))))).getD "unknown_error"

/-! ### MessageHandler: configuration, collaborators, results

`process_single_url` and its helpers.  The collaborators (analyzer, LLM,
cache backend, disk) appear as an `Oracle` whose fields return either a
value or a raised exception; a trace of `Ev` events records which
collaborator calls were made and with which cache keys. -/

/-- The `MessageHandler` configuration fields used by the studied code. -/
structure MHConfig where
  enableCache : Bool
  enableScreenshot : Bool
  sendContentType : String
  enableCrop : Bool
  cropArea : List Int
  hasLlm : Bool
  enableSpecific : Bool
  extractTypes : List String
deriving Repr

/-- Truthiness of an optional string (`if content:` — `None` and `""` are
falsy). -/
def pyStrTruthy : Option String → Bool
  | none => false
  | some s => s ≠ ""

/-- The structured content returned by `extract_content`: the `title` and
`content` entries of the dictionary (`none` = key missing). -/
structure ContentData where
  title : Option String
  content : Option String
deriving DecidableEq, Repr

/-- `extract_specific_content` output: image `(url, alt)` pairs and link
`(text, url)` pairs. -/
structure SpecificContent where
  images : List (String × String)
  links : List (String × String)
deriving DecidableEq, Repr

/-- The `result` field of a cached entry: a string, or a nested dict whose
`analysis` entry is taken (falling back to the dict's `str()` rendering). -/
inductive RField where
  | rstr (s : String)
  | rdict (analysis : Option String) (reprS : String)
deriving DecidableEq, Repr

/-- The `screenshot` field of a cached entry: absent, actual bytes, or a
non-`bytes` value (e.g. a path string). -/
inductive SField where
  | sAbsent
  | sBytes (b : Bytes)
  | sNonBytes
deriving DecidableEq, Repr

/-- A cached dictionary as `check_cache` reads it: the `result` field
(missing ≘ `rstr ""` via `.get("result", "")` is kept separate), the
truthiness of `.get("has_screenshot", False)`, and the `screenshot`
field. -/
structure CachedDict where
  result : RField
  hasScreenshot : Bool
  screenshot : SField
deriving DecidableEq, Repr

/-- A value returned by `cache_manager.get`: a truthy dictionary, the
falsy empty dictionary, or a non-dictionary value of either truthiness. -/
inductive CachedVal where
  | cvDict (d : CachedDict)
  | cvEmptyDict
  | cvOther (truthy : Bool)
deriving DecidableEq, Repr

/-- An event of the collaborator-call trace. -/
inductive Ev where
  | fetch (url : String)
  | extract (url : String)
  | llm
  | specific
  | capture (url : String)
  | crop (b : Bytes)
  | cacheGet (k : String)
  | cacheSet (k : String)
  | diskRead (k : String)
deriving DecidableEq, Repr

/-- The behaviour of every collaborator reachable from
`process_single_url`; each field may raise. -/
structure Oracle where
  cacheGet : String → Except PyExc (Option CachedVal)
  cacheSet : String → Except PyExc Unit
  cacheSetWithHash : String → String → Except PyExc Unit
  diskRead : String → Except PyExc (Option Bytes)
  aenter : Except PyExc Unit
  aexit : Except PyExc Unit
  fetchWebpage : String → Except PyExc (Option String)
  extractContent : String → String → Except PyExc (Option ContentData)
  llmAnalyze : Except PyExc (Option String)
  extractSpecific : String → String → List String → Except PyExc (Option SpecificContent)
  captureScreenshot : String → Except PyExc (Option Bytes)
  cropScreenshot : Bytes → List Int → Except PyExc Bytes

/-- A result dictionary of `process_single_url`: the `url` and `result`
strings, the `screenshot` value, and the `has_screenshot` field (`none`
when the key is missing, as in the dictionary built by the outer
exception handler). -/
structure ResultDict where
  url : String
  result : String
  screenshot : Option Bytes
  hasScreenshot : Option Bool
deriving DecidableEq, Repr

/-- What `check_cache` returns: `None`, a freshly built result
dictionary, the falsy empty dictionary passed through, or a
non-dictionary cached value passed through. -/
inductive CheckOut where
  | outNone
  | outEmptyDict
  | outNonDict (truthy : Bool)
  | outDict (url result : String) (screenshot : Option Bytes) (hasScreenshot : Bool)
deriving DecidableEq, Repr

/-- Python truthiness of a `check_cache` result (`if cached_result:`). -/
def checkOutTruthy : CheckOut → Bool
  | .outDict _ _ _ _ => true
  | .outNonDict t => t
  | _ => false

/-- The exception `Exception("无法获取网页内容")` raised for an empty fetch. -/
def excNoHtml : PyExc := ⟨"Exception", "无法获取网页内容", false, false, false⟩

/-- The exception `Exception("无法解析网页内容")` raised for a failed parse. -/
def excNoParse : PyExc := ⟨"Exception", "无法解析网页内容", false, false, false⟩

/-- The exception `Exception("截图生成失败")` for a failed screenshot. -/
def excScreenshotFail : PyExc := ⟨"Exception", "截图生成失败", false, false, false⟩

/-- The `KeyError` raised by `content_data["content"]` when the key is
missing. -/
def keyErrorContent : PyExc := ⟨"KeyError", "content", false, false, false⟩

/-- The network-error result dictionary of `process_single_url` step 2. -/
def netErrDict (url : String) : ResultDict :=
  ⟨url, handleError "network_error" excNoHtml (some url), none, some false⟩

/-- The parsing-error result dictionary of `process_single_url` step 3. -/
def parseErrDict (url : String) : ResultDict :=
  ⟨url, handleError "parsing_error" excNoParse (some url), none, some false⟩

/-- The dictionary built by the catch-all `except` of
`process_single_url`; note it carries no `has_screenshot` key. -/
def catchDict (url : String) (e : PyExc) : ResultDict :=
  ⟨url, handleError (getErrorType e) e (some url), none, none⟩

/-- `MessageHandler._load_screenshot_from_cache`: read the screenshot
companion file; every exception is caught, returning `None`. -/
def loadScreenshotFromCache (o : Oracle) (url : String) : Option Bytes :=
  match o.diskRead url with
  | .error _ => none
  | .ok r => r

/-- `MessageHandler.check_cache`.  Returns `None` when caching is off;
otherwise reads the cache at the normalized URL and, for a truthy cached
dictionary, rebuilds the standard result shape, loading screenshot bytes
from disk when the entry is marked `has_screenshot` but holds no actual
bytes.  Exceptions from the cache backend propagate. -/
def cachedResultText (d : CachedDict) : String :=
  match d.result with
  | .rstr s => s
  | .rdict a r => a.getD r

def checkCache (cfg : MHConfig) (o : Oracle) (url : String) :
    Except PyExc CheckOut × List Ev :=
  if ¬cfg.enableCache then (.ok .outNone, [])
  else
    match o.cacheGet (normalizeUrl url) with
    | .error e => (.error e, [.cacheGet (normalizeUrl url)])
    | .ok none => (.ok .outNone, [.cacheGet (normalizeUrl url)])
    | .ok (some .cvEmptyDict) => (.ok .outEmptyDict, [.cacheGet (normalizeUrl url)])
    | .ok (some (.cvOther t)) => (.ok (.outNonDict t), [.cacheGet (normalizeUrl url)])
    | .ok (some (.cvDict d)) =>
      if d.hasScreenshot then
        match d.screenshot with
        | .sBytes b =>
          (.ok (.outDict url (cachedResultText d) (some b) true),
            [.cacheGet (normalizeUrl url)])
        | _ =>
          (.ok (.outDict url (cachedResultText d)
              (loadScreenshotFromCache o (normalizeUrl url))
              (loadScreenshotFromCache o (normalizeUrl url)).isSome),
            [.cacheGet (normalizeUrl url), .diskRead (normalizeUrl url)])
      else
        (.ok (.outDict url (cachedResultText d) none false),
          [.cacheGet (normalizeUrl url)])

/-- `MessageHandler.update_cache`: a no-op when caching is off; otherwise
store under the normalized key, via the content-hash variant when a
truthy content string is given. -/
def updateCache (cfg : MHConfig) (o : Oracle) (url : String)
    (content : Option String) : Except PyExc Unit × List Ev :=
  if ¬cfg.enableCache then (.ok (), [])
  else
    if pyStrTruthy content then
      (o.cacheSetWithHash (normalizeUrl url) (content.getD ""),
        [.cacheSet (normalizeUrl url)])
    else (o.cacheSet (normalizeUrl url), [.cacheSet (normalizeUrl url)])

/-- `MessageHandler._analyze_content`: use the LLM when present, fall
back to a title/excerpt summary on a falsy LLM answer, and turn any
exception into the fixed string `"分析失败"`. -/
def fallbackSummary (cd : ContentData) : String :=
  "网页标题：" ++ cd.title.getD "无标题" ++ "\n\n内容：" ++
    (⟨(cd.content.getD "").data.take 500⟩ : String) ++ "..."

def analyzeContent (cfg : MHConfig) (o : Oracle) (cd : ContentData) :
    String × List Ev :=
  if cfg.hasLlm then
    match o.llmAnalyze with
    | .error _ => ("分析失败", [.llm])
    | .ok r =>
      if pyStrTruthy r then (r.getD "", [.llm]) else (fallbackSummary cd, [.llm])
  else (fallbackSummary cd, [])

/-- `MessageHandler._extract_and_add_specific_content`: append extracted
image and link listings to the analysis text; any exception (and a falsy
extraction result) leaves the analysis unchanged. -/
def extractAndAddSpecific (cfg : MHConfig) (o : Oracle) (analysis html url : String) :
    String × List Ev :=
  match o.extractSpecific html url cfg.extractTypes with
  | .error _ => (analysis, [.specific])
  | .ok none => (analysis, [.specific])
  | .ok (some sp) =>
    let imgPart :=
      if sp.images ≠ [] then
        "\n📷 图片链接 (" ++ toString sp.images.length ++ "):\n" ++
          String.join (sp.images.map (fun im =>
            if im.2 ≠ "" then "- " ++ im.1 ++ " (alt: " ++ im.2 ++ ")\n"
            else "- " ++ im.1 ++ "\n"))
      else ""
    let linkPart :=
      if sp.links ≠ [] then
        "\n🔗 相关链接 (" ++ toString sp.links.length ++ "):\n" ++
          String.join ((sp.links.take 5).map (fun l =>
            "- [" ++ l.1 ++ "](" ++ l.2 ++ ")\n"))
      else ""
    (analysis ++ "\n\n**特定内容提取**\n" ++ imgPart ++ linkPart, [.specific])

/-- `MessageHandler._generate_screenshot`: skip when screenshots are off
or in analysis-only mode; capture (exceptions become `None`); crop only
when enabled and the captured bytes are truthy, a crop exception
degrading to the uncropped bytes. -/
def generateScreenshot (cfg : MHConfig) (o : Oracle) (url : String) :
    Option Bytes × List Ev :=
  if ¬cfg.enableScreenshot ∨ cfg.sendContentType = "analysis_only" then (none, [])
  else
    match o.captureScreenshot url with
    | .error _ => (none, [.capture url])
    | .ok scr =>
      if cfg.enableCrop ∧ bytesTruthy scr then
        match o.cropScreenshot (scr.getD []) cfg.cropArea with
        | .ok b2 => (some b2, [.capture url, .crop (scr.getD [])])
        | .error _ => (scr, [.capture url, .crop (scr.getD [])])
      else (scr, [.capture url])

/-- `MessageHandler._generate_screenshot_for_only_mode`: as
`_generate_screenshot` but gated only on `enable_screenshot`. -/
def generateScreenshotForOnlyMode (cfg : MHConfig) (o : Oracle) (url : String) :
    Option Bytes × List Ev :=
  if ¬cfg.enableScreenshot then (none, [])
  else
    match o.captureScreenshot url with
    | .error _ => (none, [.capture url])
    | .ok scr =>
      if cfg.enableCrop ∧ bytesTruthy scr then
        match o.cropScreenshot (scr.getD []) cfg.cropArea with
        | .ok b2 => (some b2, [.capture url, .crop (scr.getD [])])
        | .error _ => (scr, [.capture url, .crop (scr.getD [])])
      else (scr, [.capture url])

/-- The suffix appended to the normalized URL for screenshot-only cache
keys. -/
def screenshotOnlySuffix : String := "_screenshot_only"

/-- The cache key read (and, after re-normalization in `update_cache`,
written) by `_process_screenshot_only`. -/
def screenshotOnlyKey (url : String) : String :=
  normalizeUrl url ++ screenshotOnlySuffix

/-- The generate-and-cache tail of `_process_screenshot_only`: runs after
every cache miss.  A falsy screenshot yields the screenshot-error
dictionary; a truthy one is cached under the suffixed key (via
`update_cache`, which normalizes the key again) and returned with
`has_screenshot = True`. -/
def onlyGenerate (cfg : MHConfig) (o : Oracle) (url : String) (t0 : List Ev) :
    Except PyExc ResultDict × List Ev :=
  if bytesTruthy (generateScreenshotForOnlyMode cfg o url).1 then
    match (updateCache cfg o (screenshotOnlyKey url) none).1 with
    | .error e =>
      (.error e, t0 ++ (generateScreenshotForOnlyMode cfg o url).2 ++
        (updateCache cfg o (screenshotOnlyKey url) none).2)
    | .ok _ =>
      (.ok ⟨url, "截图模式", (generateScreenshotForOnlyMode cfg o url).1, some true⟩,
        t0 ++ (generateScreenshotForOnlyMode cfg o url).2 ++
          (updateCache cfg o (screenshotOnlyKey url) none).2)
  else
    (.ok ⟨url, handleError "screenshot_error" excScreenshotFail (some url), none, some false⟩,
      t0 ++ (generateScreenshotForOnlyMode cfg o url).2)

/-- The body of `_process_screenshot_only` before its catch-all `except`:
check the screenshot-only cache entry (memory bytes first, then the disk
companion file), falling through to screenshot generation. -/
def onlyBody (cfg : MHConfig) (o : Oracle) (url : String) :
    Except PyExc ResultDict × List Ev :=
  if cfg.enableCache then
    match o.cacheGet (screenshotOnlyKey url) with
    | .error e => (.error e, [.cacheGet (screenshotOnlyKey url)])
    | .ok (some (.cvDict d)) =>
      match d.screenshot with
      | .sBytes b =>
        (.ok ⟨url, "截图模式", some b, some true⟩, [.cacheGet (screenshotOnlyKey url)])
      | _ =>
        match loadScreenshotFromCache o (screenshotOnlyKey url) with
        | some b =>
          if b.isEmpty then
            onlyGenerate cfg o url
              [.cacheGet (screenshotOnlyKey url), .diskRead (screenshotOnlyKey url)]
          else
            (.ok ⟨url, "截图模式", some b, some true⟩,
              [.cacheGet (screenshotOnlyKey url), .diskRead (screenshotOnlyKey url)])
        | none =>
          onlyGenerate cfg o url
            [.cacheGet (screenshotOnlyKey url), .diskRead (screenshotOnlyKey url)]
    | .ok _ => onlyGenerate cfg o url [.cacheGet (screenshotOnlyKey url)]
  else onlyGenerate cfg o url []

/-- `MessageHandler._process_screenshot_only`: the body wrapped in its
catch-all `except`, which builds an error dictionary (with
`has_screenshot: False`).  The function never raises. -/
def processScreenshotOnly (cfg : MHConfig) (o : Oracle) (url : String) :
    ResultDict × List Ev :=
  match (onlyBody cfg o url).1 with
  | .ok d => (d, (onlyBody cfg o url).2)
  | .error e =>
    (⟨url, handleError (getErrorType e) e (some url), none, some false⟩,
      (onlyBody cfg o url).2)

/-- Steps 2–8 of `process_single_url`, inside `async with analyzer`:
fetch (falsy HTML → network-error dictionary), extract (falsy content →
parsing-error dictionary), analyze, optional specific extraction,
screenshot, assemble the result and update the cache
(`content_data["content"]` raising `KeyError` when the key is absent). -/
def analysisText (cfg : MHConfig) (o : Oracle) (cd : ContentData)
    (html url : String) : String :=
  if cfg.enableSpecific ∧ cfg.extractTypes ≠ [] then
    (extractAndAddSpecific cfg o (analyzeContent cfg o cd).1 html url).1
  else (analyzeContent cfg o cd).1

def analysisTrace (cfg : MHConfig) (o : Oracle) (cd : ContentData)
    (html url : String) : List Ev :=
  (analyzeContent cfg o cd).2 ++
    (if cfg.enableSpecific ∧ cfg.extractTypes ≠ [] then
      (extractAndAddSpecific cfg o (analyzeContent cfg o cd).1 html url).2
    else [])

def insideWith (cfg : MHConfig) (o : Oracle) (url : String) :
    Except PyExc ResultDict × List Ev :=
  match o.fetchWebpage url with
  | .error e => (.error e, [.fetch url])
  | .ok none => (.ok (netErrDict url), [.fetch url])
  | .ok (some html) =>
    if html = "" then (.ok (netErrDict url), [.fetch url])
    else
      match o.extractContent html url with
      | .error e => (.error e, [.fetch url, .extract url])
      | .ok none => (.ok (parseErrDict url), [.fetch url, .extract url])
      | .ok (some cd) =>
        match cd.content with
        | none =>
          (.error keyErrorContent,
            [.fetch url, .extract url] ++ analysisTrace cfg o cd html url ++
              (generateScreenshot cfg o url).2)
        | some cont =>
          match (updateCache cfg o url (some cont)).1 with
          | .error e =>
            (.error e,
              [.fetch url, .extract url] ++ analysisTrace cfg o cd html url ++
                (generateScreenshot cfg o url).2 ++ (updateCache cfg o url (some cont)).2)
          | .ok _ =>
            (.ok ⟨url, analysisText cfg o cd html url, (generateScreenshot cfg o url).1,
                some (generateScreenshot cfg o url).1.isSome⟩,
              [.fetch url, .extract url] ++ analysisTrace cfg o cd html url ++
                (generateScreenshot cfg o url).2 ++ (updateCache cfg o url (some cont)).2)

/-- The full-analysis path inside `async with analyzer`: `__aenter__`,
the body, then `__aexit__`; an exception raised by `__aexit__` (which
does not suppress) replaces the outcome. -/
def fullModeBody (cfg : MHConfig) (o : Oracle) (url : String) :
    Except PyExc ResultDict × List Ev :=
  match o.aenter with
  | .error e => (.error e, [])
  | .ok _ =>
    match o.aexit with
    | .ok _ => insideWith cfg o url
    | .error e2 => (.error e2, (insideWith cfg o url).2)

/-- What `process_single_url` hands back to its caller: a result
dictionary, or a truthy non-dictionary cached value passed through
unchanged. -/
inductive ProcOut where
  | pdict (d : ResultDict)
  | pother (truthy : Bool)
deriving DecidableEq, Repr

/-- `MessageHandler.process_single_url`: acquire a concurrency slot
(modelled as decrementing the available count `sem`, which the caller
must have been granted, i.e. `1 ≤ sem`), run the screenshot-only
short-circuit or the cache-check/full-analysis path with its catch-all
`except`, and release the slot in the `finally` block on every exit
path.  The returned triple is (returned value, semaphore count after,
collaborator-call trace). -/
def processBody (cfg : MHConfig) (o : Oracle) (url : String) :
    ProcOut × List Ev :=
  if cfg.sendContentType = "screenshot_only" then
    (ProcOut.pdict (processScreenshotOnly cfg o url).1, (processScreenshotOnly cfg o url).2)
  else
    match (checkCache cfg o url).1 with
    | .error e => (ProcOut.pdict (catchDict url e), (checkCache cfg o url).2)
    | .ok (.outDict u rr s h) => (ProcOut.pdict ⟨u, rr, s, some h⟩, (checkCache cfg o url).2)
    | .ok (.outNonDict true) => (ProcOut.pother true, (checkCache cfg o url).2)
    | .ok _ =>
      match (fullModeBody cfg o url).1 with
      | .ok d =>
        (ProcOut.pdict d, (checkCache cfg o url).2 ++ (fullModeBody cfg o url).2)
      | .error e =>
        (ProcOut.pdict (catchDict url e),
          (checkCache cfg o url).2 ++ (fullModeBody cfg o url).2)

def processSingleUrl (cfg : MHConfig) (o : Oracle) (url : String) (sem : Nat) :
    ProcOut × Nat × List Ev :=
  ((processBody cfg o url).1, (sem - 1) + 1, (processBody cfg o url).2)

/-! ## Theorems -/

/-! ### LRU memory cache (C2, C3) -/

theorem length_odMoveToEnd (c : MemCache) (k : String) :
    (odMoveToEnd c k).length = c.length := by
  induction c with
  | nil => rfl
  | cons p tl ih =>
    simp only [odMoveToEnd]
    split
    · simp
    · simp [ih]

theorem length_updateLruCache (c : MemCache) (k : String) :
    (updateLruCache c k).length = c.length := by
  unfold updateLruCache
  split
  · exact length_odMoveToEnd c k
  · rfl

theorem ensureCacheSize_error_eq_nil (m : Nat) (c e : MemCache)
    (h : ensureCacheSize m c = .error e) : e = [] := by
  induction c with
  | nil =>
    unfold ensureCacheSize at h
    split at h
    · simpa using h
    · simp at h
  | cons p tl ih =>
    unfold ensureCacheSize at h
    split at h
    · exact ih h
    · simp at h

theorem ensureCacheSize_ok_lt (m : Nat) (c c' : MemCache)
    (h : ensureCacheSize m c = .ok c') : c'.length < m := by
  induction c with
  | nil =>
    unfold ensureCacheSize at h
    split at h
    · simp at h
    · rename_i hm
      simp only [Except.ok.injEq] at h
      subst h
      simpa using Nat.pos_of_ne_zero hm
  | cons p tl ih =>
    unfold ensureCacheSize at h
    split at h
    · exact ih h
    · rename_i hm
      simp only [Except.ok.injEq] at h
      subst h
      simpa using Nat.lt_of_not_le hm

theorem length_odInsert_le (c : MemCache) (k : String) (v : Bytes) :
    (odInsert c k v).length ≤ c.length + 1 := by
  induction c with
  | nil => simp [odInsert]
  | cons p tl ih =>
    simp only [odInsert]
    split
    · simp
    · simpa using Nat.succ_le_succ ih

theorem putToMemory_length_le (m : Nat) (hash : String → String)
    (url : String) (b : Bytes) (c c' : MemCache) :
    (putToMemory m hash url b c = .ok c' → c'.length ≤ m) ∧
    (putToMemory m hash url b c = .error c' → c'.length ≤ m) := by
  constructor
  · intro h
    unfold putToMemory at h
    split at h
    · simp at h
    · rename_i cm hcm
      simp only [Except.ok.injEq] at h
      subst h
      exact Nat.le_trans (length_odInsert_le cm (hash url) b)
        (Nat.succ_le_of_lt (ensureCacheSize_ok_lt m c cm hcm))
  · intro h
    unfold putToMemory at h
    split at h
    · rename_i cm hcm
      simp only [Except.error.injEq] at h
      subst h
      simp [ensureCacheSize_error_eq_nil m c cm hcm]
    · simp at h

theorem runMemOp_length_le (m : Nat) (hash : String → String)
    (c : MemCache) (op : MemOp) (hc : c.length ≤ m) :
    (runMemOp m hash c op).length ≤ m := by
  cases op with
  | put url b =>
    simp only [runMemOp]
    split
    · rename_i c' h
      exact (putToMemory_length_le m hash url b c c').1 h
    · rename_i c' h
      exact (putToMemory_length_le m hash url b c c').2 h
  | get url =>
    simp only [runMemOp, getFromMemory]
    split
    · simpa [length_updateLruCache] using hc
    · simpa using hc

theorem runMemOps_length_le (m : Nat) (hash : String → String)
    (ops : List MemOp) (c : MemCache) (hc : c.length ≤ m) :
    (runMemOps m hash c ops).length ≤ m := by
  induction ops generalizing c with
  | nil => simpa [runMemOps]
  | cons op ops ih =>
    simpa [runMemOps, List.foldl_cons] using
      ih (runMemOp m hash c op) (runMemOp_length_le m hash c op hc)

/-- C2: for every sequence of `get_from_memory`/`put_to_memory` operations
on a `ScreenshotTempManager` with capacity `max_memory_cache`, the memory
cache size stays at most `max_memory_cache` after every operation; and
`put_to_memory` is exactly `_ensure_cache_size` (evicting
least-recently-used entries while the size is at or above capacity, so
that the size is strictly below capacity) followed by the insertion. -/
theorem c2_put_evicts_before_insert_and_size_invariant
    (maxMemoryCache : Nat) (hash : String → String) :
    (∀ ops : List MemOp,
      (runMemOps maxMemoryCache hash [] ops).length ≤ maxMemoryCache) ∧
    (∀ (url : String) (b : Bytes) (c c' : MemCache),
      putToMemory maxMemoryCache hash url b c = .ok c' →
      ∃ cm, ensureCacheSize maxMemoryCache c = .ok cm ∧
        cm.length < maxMemoryCache ∧ c' = odInsert cm (hash url) b) := by
  constructor
  · intro ops
    exact runMemOps_length_le maxMemoryCache hash ops [] (by simp)
  · intro url b c c' h
    unfold putToMemory at h
    split at h
    · simp at h
    · rename_i cm hcm
      simp only [Except.ok.injEq] at h
      exact ⟨cm, hcm, ensureCacheSize_ok_lt maxMemoryCache c cm hcm, h.symm⟩

/-- Witness for C2 at a concrete input: capacity 2, three insertions; the
structural clause instantiated at the third `put`. -/
theorem c2_witness :
    (runMemOps 2 (fun s => s) [] [.put "a" [1], .put "b" [2], .put "c" [3]]).length ≤ 2 ∧
    (∃ cm, ensureCacheSize 2 [("a", [1]), ("b", [2])] = .ok cm ∧
      cm.length < 2 ∧ odInsert cm "c" [3] = odInsert cm "c" [3]) := by
  refine ⟨(c2_put_evicts_before_insert_and_size_invariant 2 (fun s => s)).1 _, ?_⟩
  obtain ⟨cm, h1, h2, _⟩ :=
    (c2_put_evicts_before_insert_and_size_invariant 2 (fun s => s)).2
      "c" [3] [("a", [1]), ("b", [2])] [("b", [2]), ("c", [3])] rfl
  exact ⟨cm, h1, h2, rfl⟩


theorem ensureCacheSize_ok_of_lt (m : Nat) (c : MemCache) (h : c.length < m) :
    ensureCacheSize m c = .ok c := by
  cases c with
  | nil =>
    unfold ensureCacheSize
    split
    · omega
    · rfl
  | cons p tl =>
    unfold ensureCacheSize
    split
    · rename_i hm
      simp at h
      omega
    · rfl

theorem ensureCacheSize_at_capacity (m : Nat) (c : MemCache)
    (h : c.length = m) (hm : 1 ≤ m) :
    ensureCacheSize m c = .ok (c.drop 1) := by
  cases c with
  | nil =>
    simp at h
    omega
  | cons p tl =>
    unfold ensureCacheSize
    split
    · simp only [List.length_cons] at h
      exact (ensureCacheSize_ok_of_lt m tl (by omega)).trans (by simp)
    · rename_i hm2
      simp only [List.length_cons] at h
      omega

theorem odInsert_fresh (c : MemCache) (k : String) (v : Bytes)
    (h : k ∉ c.map Prod.fst) : odInsert c k v = c ++ [(k, v)] := by
  induction c with
  | nil => rfl
  | cons p tl ih =>
    simp only [List.map_cons, List.mem_cons] at h
    push_neg at h
    simp only [odInsert]
    rw [if_neg (by exact fun hc => h.1 hc.symm), ih h.2]
    rfl

theorem odLookup_not_mem (c : MemCache) (k : String)
    (h : k ∉ c.map Prod.fst) : odLookup c k = none := by
  induction c with
  | nil => rfl
  | cons p tl ih =>
    simp only [List.map_cons, List.mem_cons] at h
    push_neg at h
    simp only [odLookup]
    rw [if_neg (by exact fun hc => h.1 hc.symm)]
    exact ih h.2

theorem odLookup_map_nodup (hash : String → String) (l : List (String × Bytes))
    (hnd : (l.map (fun p => hash p.1)).Nodup) (i : Nat) (hi : i < l.length) :
    odLookup (l.map (fun p => (hash p.1, p.2))) (hash (l.get ⟨i, hi⟩).1) =
      some (l.get ⟨i, hi⟩).2 := by
  induction l generalizing i with
  | nil => simp at hi
  | cons p tl ih =>
    simp only [List.map_cons, List.nodup_cons] at hnd
    cases i with
    | zero => simp [odLookup]
    | succ j =>
      simp only [List.length_cons] at hi
      have hj : j < tl.length := by omega
      have hmem : tl.get ⟨j, hj⟩ ∈ tl := List.get_mem tl j hj
      have hne : hash (tl.get ⟨j, hj⟩).1 ≠ hash p.1 := by
        intro he
        exact hnd.1 (he ▸ (List.mem_map.mpr ⟨tl.get ⟨j, hj⟩, hmem, rfl⟩))
      simp only [List.map_cons, odLookup, List.get_cons_succ]
      rw [if_neg (by exact fun hc => hne hc.symm)]
      exact ih hnd.2 j hj

theorem runMemOp_put_fresh (max : Nat) (hash : String → String)
    (p : String × Bytes) (c : MemCache) (hlen : c.length < max)
    (hfresh : hash p.1 ∉ c.map Prod.fst) :
    runMemOp max hash c (MemOp.put p.1 p.2) = c ++ [(hash p.1, p.2)] := by
  simp only [runMemOp, putToMemory, ensureCacheSize_ok_of_lt max c hlen]
  exact odInsert_fresh c (hash p.1) p.2 hfresh

theorem runPuts_fresh (max : Nat) (hash : String → String)
    (l : List (String × Bytes)) (c : MemCache)
    (hlen : c.length + l.length ≤ max)
    (hfresh : ∀ p ∈ l, hash p.1 ∉ c.map Prod.fst)
    (hnd : (l.map (fun p => hash p.1)).Nodup) :
    runMemOps max hash c (l.map (fun p => MemOp.put p.1 p.2)) =
      c ++ l.map (fun p => (hash p.1, p.2)) := by
  induction l generalizing c with
  | nil => simp [runMemOps]
  | cons p tl ih =>
    simp only [List.map_cons, List.nodup_cons] at hnd
    simp only [List.map_cons, runMemOps, List.foldl_cons]
    rw [show runMemOp max hash c (MemOp.put p.1 p.2) = c ++ [(hash p.1, p.2)] from
      runMemOp_put_fresh max hash p c (by simp only [List.length_cons] at hlen; omega)
        (hfresh p (by simp))]
    have hrec := ih (c ++ [(hash p.1, p.2)])
      (by simp only [List.length_append, List.length_cons, List.length_nil] at hlen ⊢; omega)
      (by
        intro q hq
        simp only [List.map_append, List.mem_append, List.map_cons, List.map_nil,
          List.mem_singleton]
        push_neg
        refine ⟨fun hc => hfresh q (by simp [hq]) hc, ?_⟩
        intro he
        exact hnd.1 (he ▸ (List.mem_map.mpr ⟨q, hq, rfl⟩)))
      hnd.2
    simp only [runMemOps] at hrec
    rw [hrec, List.append_assoc]
    rfl

/-- After inserting capacity-plus-one entries with pairwise distinct
hashes into an empty cache, the cache holds exactly the entries of
`pairs` without the first one. -/
theorem runPuts_full_state (max : Nat) (hash : String → String)
    (pairs : List (String × Bytes)) (hm : 1 ≤ max)
    (hl : pairs.length = max + 1)
    (hnd : (pairs.map (fun p => hash p.1)).Nodup) :
    runMemOps max hash [] (pairs.map (fun p => MemOp.put p.1 p.2)) =
      (pairs.map (fun p => (hash p.1, p.2))).drop 1 := by
  rcases List.eq_nil_or_concat pairs with hnil | ⟨L, b, hLb⟩
  · subst hnil
    simp at hl
  · subst hLb
    simp only [List.concat_eq_append] at hl hnd ⊢
    have hLlen : L.length = max := by simpa using hl
    have hndparts := List.nodup_append.mp (by simpa using hnd)
    have hfirst :
        runMemOps max hash [] (L.map (fun p => MemOp.put p.1 p.2)) =
          L.map (fun p => (hash p.1, p.2)) := by
      have := runPuts_fresh max hash L [] (by simp [hLlen]) (by simp) hndparts.1
      simpa using this
    have hfreshb : hash b.1 ∉ (L.map (fun p => (hash p.1, p.2))).map Prod.fst := by
      simp only [List.map_map]
      intro hc
      exact hndparts.2.2 (by simpa using hc) (List.mem_singleton.mpr rfl)
    have hstep :
        runMemOps max hash [] ((L ++ [b]).map (fun p => MemOp.put p.1 p.2)) =
          runMemOp max hash (L.map (fun p => (hash p.1, p.2))) (MemOp.put b.1 b.2) := by
      simp only [List.map_append, List.map_cons, List.map_nil, runMemOps,
        List.foldl_append, List.foldl_cons, List.foldl_nil]
      simp only [runMemOps] at hfirst
      rw [hfirst]
    rw [hstep]
    have hcap : (L.map (fun p => (hash p.1, p.2))).length = max := by simp [hLlen]
    have hput :
        runMemOp max hash (L.map (fun p => (hash p.1, p.2))) (MemOp.put b.1 b.2) =
          (L.map (fun p => (hash p.1, p.2))).drop 1 ++ [(hash b.1, b.2)] := by
      simp only [runMemOp, putToMemory, ensureCacheSize_at_capacity max _ hcap hm]
      refine odInsert_fresh _ _ _ ?_
      intro hc
      exact hfreshb (List.map_subset Prod.fst (List.drop_subset 1 _) hc)
    rw [hput]
    rcases L with _ | ⟨x, L2⟩
    · simp at hLlen
      omega
    · simp

/-- C3: starting from an empty memory cache with capacity `max`, after
`put_to_memory` of `max + 1` URL/bytes pairs with pairwise distinct
hashes (no intervening reads), `get_from_memory` returns `None` exactly
for the first-inserted URL, and returns the stored bytes for every one
of the other `max` URLs. -/
theorem c3_lru_evicts_exactly_first (max : Nat) (hash : String → String)
    (pairs : List (String × Bytes)) (hm : 1 ≤ max)
    (hl : pairs.length = max + 1)
    (hnd : (pairs.map (fun p => hash p.1)).Nodup)
    (h0 : 0 < pairs.length) :
    (getFromMemory hash (pairs.get ⟨0, h0⟩).1
        (runMemOps max hash [] (pairs.map (fun p => MemOp.put p.1 p.2)))).1 = none ∧
    ∀ i (hi : i + 1 < pairs.length),
      (getFromMemory hash (pairs.get ⟨i + 1, hi⟩).1
          (runMemOps max hash [] (pairs.map (fun p => MemOp.put p.1 p.2)))).1 =
        some (pairs.get ⟨i + 1, hi⟩).2 := by
  rw [runPuts_full_state max hash pairs hm hl hnd]
  rcases pairs with _ | ⟨q, qrest⟩
  · simp at h0
  · simp only [List.map_cons, List.drop_succ_cons, List.drop_zero]
    have hnd2 : hash q.1 ∉ qrest.map (fun p => hash p.1) ∧
        (qrest.map (fun p => hash p.1)).Nodup := by
      rw [List.map_cons, List.nodup_cons] at hnd
      exact hnd
    constructor
    · have hlook : odLookup (qrest.map (fun p => (hash p.1, p.2))) (hash q.1) = none := by
        refine odLookup_not_mem _ _ ?_
        simp only [List.map_map]
        intro hc
        exact hnd2.1 (by simpa using hc)
      simp only [getFromMemory, List.get]
      rw [hlook]
    · intro i hi
      simp only [List.length_cons] at hi
      have hj : i < qrest.length := by omega
      have hlook := odLookup_map_nodup hash qrest hnd2.2 i hj
      simp only [getFromMemory, List.get_cons_succ]
      simp only [hlook]

/-- Witness for C3: capacity 2, the three URLs `"a"`, `"b"`, `"c"` with
the identity hash; `"a"` is evicted, `"b"` and `"c"` remain readable. -/
theorem c3_witness :
    (getFromMemory (fun s => s) "a"
        (runMemOps 2 (fun s => s) [] [.put "a" [1], .put "b" [2], .put "c" [3]])).1 = none ∧
    (getFromMemory (fun s => s) "b"
        (runMemOps 2 (fun s => s) [] [.put "a" [1], .put "b" [2], .put "c" [3]])).1 = some [2] ∧
    (getFromMemory (fun s => s) "c"
        (runMemOps 2 (fun s => s) [] [.put "a" [1], .put "b" [2], .put "c" [3]])).1 = some [3] := by
  have h := c3_lru_evicts_exactly_first 2 (fun s => s)
    [("a", [1]), ("b", [2]), ("c", [3])] (by decide) (by decide) (by decide) (by decide)
  refine ⟨h.1, h.2 0 (by decide), h.2 1 (by decide)⟩

/-! ### Reaper (C4, C5) -/

theorem fmErase_cons_eq (p : String × FileMeta) (tl : List (String × FileMeta))
    (k : String) (hp : p.1 = k) : fmErase (p :: tl) k = fmErase tl k := by
  simp [fmErase, List.filter_cons, hp]

theorem fmErase_cons_ne (p : String × FileMeta) (tl : List (String × FileMeta))
    (k : String) (hp : p.1 ≠ k) : fmErase (p :: tl) k = p :: fmErase tl k := by
  simp [fmErase, List.filter_cons, hp]

theorem fmLookup_fmErase_self (l : List (String × FileMeta)) (k : String) :
    fmLookup (fmErase l k) k = none := by
  induction l with
  | nil => rfl
  | cons p tl ih =>
    by_cases hp : p.1 = k
    · rw [fmErase_cons_eq p tl k hp]
      exact ih
    · rw [fmErase_cons_ne p tl k hp]
      simp only [fmLookup]
      rw [if_neg hp]
      exact ih

theorem fmLookup_fmErase_ne (l : List (String × FileMeta)) (k h : String)
    (hne : k ≠ h) : fmLookup (fmErase l h) k = fmLookup l k := by
  induction l with
  | nil => rfl
  | cons p tl ih =>
    by_cases hp : p.1 = h
    · rw [fmErase_cons_eq p tl h hp]
      rw [ih]
      simp only [fmLookup]
      rw [if_neg (by exact fun hc => hne (hc.symm.trans hp))]
    · rw [fmErase_cons_ne p tl h hp]
      simp only [fmLookup]
      rw [ih]

theorem mcErase_cons_eq (p : String × Bytes) (tl : MemCache)
    (k : String) (hp : p.1 = k) : mcErase (p :: tl) k = mcErase tl k := by
  simp [mcErase, List.filter_cons, hp]

theorem mcErase_cons_ne (p : String × Bytes) (tl : MemCache)
    (k : String) (hp : p.1 ≠ k) : mcErase (p :: tl) k = p :: mcErase tl k := by
  simp [mcErase, List.filter_cons, hp]

theorem odLookup_mcErase_self (c : MemCache) (k : String) :
    odLookup (mcErase c k) k = none := by
  induction c with
  | nil => rfl
  | cons p tl ih =>
    by_cases hp : p.1 = k
    · rw [mcErase_cons_eq p tl k hp]
      exact ih
    · rw [mcErase_cons_ne p tl k hp]
      simp only [odLookup]
      rw [if_neg hp]
      exact ih

theorem odLookup_mcErase_ne (c : MemCache) (k h : String)
    (hne : k ≠ h) : odLookup (mcErase c h) k = odLookup c k := by
  induction c with
  | nil => rfl
  | cons p tl ih =>
    by_cases hp : p.1 = h
    · rw [mcErase_cons_eq p tl h hp]
      rw [ih]
      simp only [odLookup]
      rw [if_neg (by exact fun hc => hne (hc.symm.trans hp))]
    · rw [mcErase_cons_ne p tl h hp]
      simp only [odLookup]
      rw [ih]

theorem removeFile_lookup_self (f : String → Bool) (h : String) (st : TmpState) :
    fmLookup (removeFile f h st).fileMetadata h = none := by
  unfold removeFile
  split
  · assumption
  · exact fmLookup_fmErase_self st.fileMetadata h

theorem removeFile_lookup_ne (f : String → Bool) (h k : String) (st : TmpState)
    (hne : k ≠ h) :
    fmLookup (removeFile f h st).fileMetadata k = fmLookup st.fileMetadata k := by
  unfold removeFile
  split
  · rfl
  · exact fmLookup_fmErase_ne st.fileMetadata k h hne

theorem removeFile_mc_self (f : String → Bool) (h : String) (st : TmpState)
    (m : FileMeta) (hm : fmLookup st.fileMetadata h = some m) :
    odLookup (removeFile f h st).memoryCache h = none := by
  unfold removeFile
  rw [hm]
  exact odLookup_mcErase_self st.memoryCache h

theorem removeFile_mc_none_stable (f : String → Bool) (h k : String) (st : TmpState)
    (hk : odLookup st.memoryCache k = none) :
    odLookup (removeFile f h st).memoryCache k = none := by
  unfold removeFile
  split
  · exact hk
  · by_cases hek : k = h
    · subst hek
      exact odLookup_mcErase_self st.memoryCache k
    · rw [odLookup_mcErase_ne st.memoryCache k h hek]
      exact hk

theorem removeFile_meta_none_stable (f : String → Bool) (h k : String) (st : TmpState)
    (hk : fmLookup st.fileMetadata k = none) :
    fmLookup (removeFile f h st).fileMetadata k = none := by
  by_cases hek : k = h
  · subst hek
    exact removeFile_lookup_self f k st
  · rw [removeFile_lookup_ne f h k st hek]
    exact hk

theorem removeFile_disk_subset (f : String → Bool) (h : String) (st : TmpState) :
    (removeFile f h st).disk ⊆ st.disk := by
  unfold removeFile
  split
  · exact fun x hx => hx
  · simp only
    split
    · split
      · exact fun x hx => hx
      · exact fun x hx => (List.mem_filter.mp hx).1
    · exact fun x hx => hx

theorem removeFile_unlinks (f : String → Bool) (h : String) (st : TmpState)
    (m : FileMeta) (hm : fmLookup st.fileMetadata h = some m)
    (hf : f m.path = false) : m.path ∉ (removeFile f h st).disk := by
  unfold removeFile
  rw [hm]
  simp only
  split
  · rw [hf]
    simp only [Bool.false_eq_true, if_false]
    intro hc
    have := List.of_mem_filter hc
    simp at this
  · rename_i hnd
    intro hc
    exact hnd (by simpa using hc)

theorem removeFile_mem_preserved (f : String → Bool) (h k : String) (st : TmpState)
    (m : FileMeta) (hmem : (k, m) ∈ st.fileMetadata) (hne : k ≠ h) :
    (k, m) ∈ (removeFile f h st).fileMetadata := by
  unfold removeFile
  split
  · exact hmem
  · exact List.mem_filter.mpr ⟨hmem, by simpa using hne⟩

theorem removeFile_lookup_preserved (f : String → Bool) (h k : String) (st : TmpState)
    (m : FileMeta) (hl : fmLookup st.fileMetadata k = some m) (hne : k ≠ h) :
    fmLookup (removeFile f h st).fileMetadata k = some m := by
  rw [removeFile_lookup_ne f h k st hne]
  exact hl

theorem foldRemove_meta_none_stable (f : String → Bool) (hs : List String)
    (st : TmpState) (k : String) (hk : fmLookup st.fileMetadata k = none) :
    fmLookup ((hs.foldl (fun s h => removeFile f h s) st).fileMetadata) k = none := by
  induction hs generalizing st with
  | nil => exact hk
  | cons h tl ih =>
    simp only [List.foldl_cons]
    exact ih (removeFile f h st) (removeFile_meta_none_stable f h k st hk)

theorem foldRemove_mc_none_stable (f : String → Bool) (hs : List String)
    (st : TmpState) (k : String) (hk : odLookup st.memoryCache k = none) :
    odLookup ((hs.foldl (fun s h => removeFile f h s) st).memoryCache) k = none := by
  induction hs generalizing st with
  | nil => exact hk
  | cons h tl ih =>
    simp only [List.foldl_cons]
    exact ih (removeFile f h st) (removeFile_mc_none_stable f h k st hk)

theorem foldRemove_disk_subset (f : String → Bool) (hs : List String)
    (st : TmpState) :
    (hs.foldl (fun s h => removeFile f h s) st).disk ⊆ st.disk := by
  induction hs generalizing st with
  | nil => exact fun x hx => hx
  | cons h tl ih =>
    simp only [List.foldl_cons]
    exact fun x hx => removeFile_disk_subset f h st (ih (removeFile f h st) hx)

theorem foldRemove_mem_preserved (f : String → Bool) (hs : List String)
    (st : TmpState) (k : String) (m : FileMeta)
    (hmem : (k, m) ∈ st.fileMetadata) (hk : k ∉ hs) :
    (k, m) ∈ (hs.foldl (fun s h => removeFile f h s) st).fileMetadata := by
  induction hs generalizing st with
  | nil => exact hmem
  | cons h tl ih =>
    simp only [List.mem_cons] at hk
    push_neg at hk
    simp only [List.foldl_cons]
    exact ih (removeFile f h st) (removeFile_mem_preserved f h k st m hmem hk.1) hk.2

theorem foldRemove_expired_gone (f : String → Bool) (hs : List String)
    (st : TmpState) (h : String) (m : FileMeta) (hnd : hs.Nodup)
    (hmem : h ∈ hs) (htrack : fmLookup st.fileMetadata h = some m) :
    fmLookup ((hs.foldl (fun s h => removeFile f h s) st).fileMetadata) h = none ∧
    odLookup ((hs.foldl (fun s h => removeFile f h s) st).memoryCache) h = none ∧
    (f m.path = false → m.path ∉ (hs.foldl (fun s h => removeFile f h s) st).disk) := by
  induction hs generalizing st with
  | nil => simp at hmem
  | cons h0 tl ih =>
    simp only [List.nodup_cons] at hnd
    simp only [List.foldl_cons]
    rcases List.mem_cons.mp hmem with he | hin
    · subst he
      refine ⟨foldRemove_meta_none_stable f tl _ h (removeFile_lookup_self f h st),
        foldRemove_mc_none_stable f tl _ h (removeFile_mc_self f h st m htrack), ?_⟩
      intro hf hc
      exact removeFile_unlinks f h st m htrack hf
        (foldRemove_disk_subset f tl (removeFile f h st) hc)
    · have hne : h ≠ h0 := by
        intro he
        exact hnd.1 (he ▸ hin)
      exact ih (removeFile f h0 st) hnd.2 hin
        (removeFile_lookup_preserved f h0 h st m htrack hne)

theorem fmLookup_of_mem_nodup (l : List (String × FileMeta)) (k : String)
    (m : FileMeta) (hnd : (l.map Prod.fst).Nodup) (hmem : (k, m) ∈ l) :
    fmLookup l k = some m := by
  induction l with
  | nil => simp at hmem
  | cons p tl ih =>
    simp only [List.map_cons, List.nodup_cons] at hnd
    rcases List.mem_cons.mp hmem with he | hin
    · subst he
      simp [fmLookup]
    · simp only [fmLookup]
      rw [if_neg ?_]
      · exact ih hnd.2 hin
      · intro hc
        exact hnd.1 (hc ▸ List.mem_map.mpr ⟨(k, m), hin, rfl⟩)

theorem mem_nodup_unique (l : List (String × FileMeta)) (k : String)
    (m m' : FileMeta) (hnd : (l.map Prod.fst).Nodup)
    (h1 : (k, m) ∈ l) (h2 : (k, m') ∈ l) : m = m' := by
  have e1 := fmLookup_of_mem_nodup l k m hnd h1
  have e2 := fmLookup_of_mem_nodup l k m' hnd h2
  rw [e1] at e2
  exact Option.some.inj e2

/-- C4: after one execution of the reaper sweep
(`_cleanup_expired_files`) at time `T`, every tracked record whose age
exceeds the TTL is gone from both the file-metadata map and the
in-memory LRU cache (and, when its unlink does not fail, its file is
gone from disk), while every tracked record whose age does not exceed
the TTL is still in the file-metadata map. -/
theorem c4_reaper_sweep (f : String → Bool) (currentTime ttl : Nat)
    (st : TmpState) (hnd : (st.fileMetadata.map Prod.fst).Nodup)
    (h : String) (m : FileMeta) (hmem : (h, m) ∈ st.fileMetadata) :
    (isExpired currentTime ttl m = true →
      fmLookup (cleanupExpiredFiles f currentTime ttl st).fileMetadata h = none ∧
      odLookup (cleanupExpiredFiles f currentTime ttl st).memoryCache h = none ∧
      (f m.path = false →
        m.path ∉ (cleanupExpiredFiles f currentTime ttl st).disk)) ∧
    (isExpired currentTime ttl m = false →
      (h, m) ∈ (cleanupExpiredFiles f currentTime ttl st).fileMetadata) := by
  have hndexp :
      ((st.fileMetadata.filter (fun p => isExpired currentTime ttl p.2)).map
        Prod.fst).Nodup :=
    (List.Sublist.map Prod.fst (List.filter_sublist st.fileMetadata)).nodup hnd
  constructor
  · intro hexp
    have hin : h ∈ (st.fileMetadata.filter
        (fun p => isExpired currentTime ttl p.2)).map Prod.fst :=
      List.mem_map.mpr ⟨(h, m), List.mem_filter.mpr ⟨hmem, by simpa using hexp⟩, rfl⟩
    exact foldRemove_expired_gone f _ st h m hndexp hin
      (fmLookup_of_mem_nodup st.fileMetadata h m hnd hmem)
  · intro hexp
    refine foldRemove_mem_preserved f _ st h m hmem ?_
    intro hc
    rcases List.mem_map.mp hc with ⟨p, hp, hpe⟩
    have hpf := List.mem_filter.mp hp
    have : p = (h, m) := by
      rcases p with ⟨p1, p2⟩
      simp only at hpe
      subst hpe
      have := mem_nodup_unique st.fileMetadata p1 p2 m hnd hpf.1 hmem
      simp [this]
    rw [this] at hpf
    simp only [decide_eq_true_eq] at hpf
    rw [hpf.2] at hexp
    simp at hexp

/-- Witness for C4: one expired and one fresh record; the expired one is
purged from all three places, the fresh one survives. -/
theorem c4_witness :
    ((isExpired 100 10 ⟨"p1", 0⟩ = true →
      fmLookup (cleanupExpiredFiles (fun _ => false) 100 10
        ⟨[("h1", ⟨"p1", 0⟩), ("h2", ⟨"p2", 95⟩)], [("h1", [7])], ["p1", "p2"]⟩).fileMetadata
        "h1" = none ∧
      odLookup (cleanupExpiredFiles (fun _ => false) 100 10
        ⟨[("h1", ⟨"p1", 0⟩), ("h2", ⟨"p2", 95⟩)], [("h1", [7])], ["p1", "p2"]⟩).memoryCache
        "h1" = none ∧
      ((fun _ => false) "p1" = false →
        "p1" ∉ (cleanupExpiredFiles (fun _ => false) 100 10
          ⟨[("h1", ⟨"p1", 0⟩), ("h2", ⟨"p2", 95⟩)], [("h1", [7])], ["p1", "p2"]⟩).disk)) ∧
     (isExpired 100 10 ⟨"p1", 0⟩ = false →
      ("h1", (⟨"p1", 0⟩ : FileMeta)) ∈ (cleanupExpiredFiles (fun _ => false) 100 10
        ⟨[("h1", ⟨"p1", 0⟩), ("h2", ⟨"p2", 95⟩)], [("h1", [7])], ["p1", "p2"]⟩).fileMetadata)) :=
  c4_reaper_sweep (fun _ => false) 100 10
    ⟨[("h1", ⟨"p1", 0⟩), ("h2", ⟨"p2", 95⟩)], [("h1", [7])], ["p1", "p2"]⟩
    (by decide) "h1" ⟨"p1", 0⟩ (by decide)

theorem removeFile_f_indep (f g : String → Bool) (h : String) (st st' : TmpState)
    (hm : st.fileMetadata = st'.fileMetadata) (hc : st.memoryCache = st'.memoryCache) :
    (removeFile f h st).fileMetadata = (removeFile g h st').fileMetadata ∧
    (removeFile f h st).memoryCache = (removeFile g h st').memoryCache := by
  unfold removeFile
  rw [hm, hc]
  cases fmLookup st'.fileMetadata h with
  | none => exact ⟨hm, hc⟩
  | some meta => exact ⟨rfl, rfl⟩

theorem foldRemove_f_indep (f g : String → Bool) (hs : List String)
    (st st' : TmpState) (hm : st.fileMetadata = st'.fileMetadata)
    (hc : st.memoryCache = st'.memoryCache) :
    (hs.foldl (fun s h => removeFile f h s) st).fileMetadata =
      (hs.foldl (fun s h => removeFile g h s) st').fileMetadata ∧
    (hs.foldl (fun s h => removeFile f h s) st).memoryCache =
      (hs.foldl (fun s h => removeFile g h s) st').memoryCache := by
  induction hs generalizing st st' with
  | nil => exact ⟨hm, hc⟩
  | cons h tl ih =>
    simp only [List.foldl_cons]
    have step := removeFile_f_indep f g h st st' hm hc
    exact ih (removeFile f h st) (removeFile g h st') step.1 step.2

/-- C5: `_remove_file` clears a tracked hash from both the file-metadata
map and the memory cache even when the unlink raises (`unlinkFails`
arbitrary, in particular constantly failing); and the in-memory outcome
of a whole reaper sweep is independent of which unlinks fail — a failure
on one record never prevents the remaining expired records from being
removed. -/
theorem c5_remove_survives_unlink_failure :
    (∀ (f : String → Bool) (st : TmpState) (h : String) (m : FileMeta),
      fmLookup st.fileMetadata h = some m →
      fmLookup (removeFile f h st).fileMetadata h = none ∧
      odLookup (removeFile f h st).memoryCache h = none) ∧
    (∀ (f g : String → Bool) (currentTime ttl : Nat) (st : TmpState),
      (cleanupExpiredFiles f currentTime ttl st).fileMetadata =
        (cleanupExpiredFiles g currentTime ttl st).fileMetadata ∧
      (cleanupExpiredFiles f currentTime ttl st).memoryCache =
        (cleanupExpiredFiles g currentTime ttl st).memoryCache) := by
  constructor
  · intro f st h m hm
    exact ⟨removeFile_lookup_self f h st, removeFile_mc_self f h st m hm⟩
  · intro f g currentTime ttl st
    unfold cleanupExpiredFiles
    exact foldRemove_f_indep f g _ st st rfl rfl

/-- Witness for C5: a constantly failing unlink still clears both
indexes for the tracked hash `"h1"`. -/
theorem c5_witness :
    fmLookup (⟨[("h1", ⟨"p1", 0⟩)], [("h1", [7])], ["p1"]⟩ : TmpState).fileMetadata
      "h1" = some ⟨"p1", 0⟩ ∧
    fmLookup (removeFile (fun _ => true) "h1"
      ⟨[("h1", ⟨"p1", 0⟩)], [("h1", [7])], ["p1"]⟩).fileMetadata "h1" = none ∧
    odLookup (removeFile (fun _ => true) "h1"
      ⟨[("h1", ⟨"p1", 0⟩)], [("h1", [7])], ["p1"]⟩).memoryCache "h1" = none := by
  have h := c5_remove_survives_unlink_failure.1 (fun _ => true)
    ⟨[("h1", ⟨"p1", 0⟩)], [("h1", [7])], ["p1"]⟩ "h1" ⟨"p1", 0⟩ (by decide)
  exact ⟨by decide, h.1, h.2⟩

/-! ### get_or_create_temp_path (C6) -/

theorem ensureCacheSize_ok_of_pos (m : Nat) (hm : 1 ≤ m) (c : MemCache) :
    ∃ c', ensureCacheSize m c = .ok c' := by
  induction c with
  | nil =>
    refine ⟨[], ?_⟩
    unfold ensureCacheSize
    rw [if_neg (by omega)]
  | cons p tl ih =>
    unfold ensureCacheSize
    split
    · exact ih
    · exact ⟨p :: tl, rfl⟩

theorem putToMemory_ok_of_pos (m : Nat) (hm : 1 ≤ m) (hash : String → String)
    (url : String) (b : Bytes) (c : MemCache) :
    ∃ c', putToMemory m hash url b c = .ok c' := by
  obtain ⟨cm, hcm⟩ := ensureCacheSize_ok_of_pos m hm c
  exact ⟨odInsert cm (hash url) b, by simp [putToMemory, hcm]⟩

/-- The claim about `get_or_create_temp_path` as the specification states
it, reading "bytes are supplied" as the screenshot argument being
present (`some`): an existing cache file yields its path; otherwise
supplied bytes are written and the new path returned (`None` exactly
when the write fails); otherwise `None`. -/
def c6AsStated (maxMemoryCache : Nat) (hash : String → String)
    (writeFails : String → Bool) (tempDir : String) (url : String)
    (screenshot : Option Bytes) (cacheDir : Option String)
    (st : TempPathState) : Prop :=
  let path := tempCachePath hash tempDir cacheDir url
  let r := getOrCreateTempPath maxMemoryCache hash writeFails tempDir url
    screenshot cacheDir st
  if st.disk.contains path then r.1 = .ok (some path)
  else if screenshot.isSome then
    (if writeFails path then r.1 = .ok none else r.1 = .ok (some path))
  else r.1 = .ok none

/-- Counterexample to C6 as stated: supplying the empty byte string
`b""` (which is present but falsy) with no existing cache file and a
never-failing write makes `get_or_create_temp_path` return `None`
instead of writing the file and returning its path. -/
theorem c6_counterexample :
    ¬ c6AsStated 1 (fun s => s) (fun _ => false) "t" "u" (some []) none ⟨[], []⟩ := by
  intro h
  have h2 : (Except.ok (none : Option String) : Except Unit (Option String)) =
      .ok (some (tempCachePath (fun s => s) "t" none "u")) := h
  simp at h2

/-- C6 amended: with "bytes are supplied" read as truthy (non-empty)
bytes, as the code tests with `if screenshot:`.  When the cache file
exists its path is returned, truthy bytes additionally refreshing the
memory cache; when it does not exist, truthy bytes are written to the
new path which is returned (`None` exactly when the write fails), and
absent or empty bytes give `None` with the state unchanged.  The
capacity is positive, so `put_to_memory` cannot raise. -/
theorem c6_get_or_create_temp_path (maxMemoryCache : Nat)
    (hash : String → String) (writeFails : String → Bool)
    (tempDir url : String) (screenshot : Option Bytes)
    (cacheDir : Option String) (st : TempPathState)
    (hm : 1 ≤ maxMemoryCache) :
    (st.disk.contains (tempCachePath hash tempDir cacheDir url) = true →
      (getOrCreateTempPath maxMemoryCache hash writeFails tempDir url
          screenshot cacheDir st).1 =
        .ok (some (tempCachePath hash tempDir cacheDir url)) ∧
      (bytesTruthy screenshot = true →
        ∃ m', putToMemory maxMemoryCache hash url (screenshot.getD []) st.mem = .ok m' ∧
          (getOrCreateTempPath maxMemoryCache hash writeFails tempDir url
            screenshot cacheDir st).2 = ⟨m', st.disk⟩) ∧
      (bytesTruthy screenshot = false →
        (getOrCreateTempPath maxMemoryCache hash writeFails tempDir url
          screenshot cacheDir st).2 = st)) ∧
    (st.disk.contains (tempCachePath hash tempDir cacheDir url) = false →
      bytesTruthy screenshot = true →
      (writeFails (tempCachePath hash tempDir cacheDir url) = true →
        getOrCreateTempPath maxMemoryCache hash writeFails tempDir url
          screenshot cacheDir st = (.ok none, st)) ∧
      (writeFails (tempCachePath hash tempDir cacheDir url) = false →
        ∃ m', putToMemory maxMemoryCache hash url (screenshot.getD []) st.mem = .ok m' ∧
          getOrCreateTempPath maxMemoryCache hash writeFails tempDir url
            screenshot cacheDir st =
          (.ok (some (tempCachePath hash tempDir cacheDir url)),
            ⟨m', tempCachePath hash tempDir cacheDir url :: st.disk⟩))) ∧
    (st.disk.contains (tempCachePath hash tempDir cacheDir url) = false →
      bytesTruthy screenshot = false →
      getOrCreateTempPath maxMemoryCache hash writeFails tempDir url
        screenshot cacheDir st = (.ok none, st)) := by
  obtain ⟨m', hput⟩ := putToMemory_ok_of_pos maxMemoryCache hm hash url
    (screenshot.getD []) st.mem
  refine ⟨?_, ?_, ?_⟩
  · intro hd
    unfold getOrCreateTempPath
    rw [hd]
    cases hb : bytesTruthy screenshot with
    | true => simp [hput]
    | false => simp
  · intro hd hb
    unfold getOrCreateTempPath
    rw [hd, hb]
    constructor
    · intro hw
      simp [hw]
    · intro hw
      simp [hw, hput]
  · intro hd hb
    unfold getOrCreateTempPath
    rw [hd, hb]
    simp

/-- Witness for the amended C6: nonexistent cache file, non-empty bytes,
write succeeds: the new path is returned and memory cache and disk are
updated. -/
theorem c6_witness :
    (1 ≤ 2) ∧
    ([] : List String).contains (tempCachePath (fun s => s) "t" none "u") = false ∧
    bytesTruthy (some [9]) = true ∧
    ((fun _ => false) (tempCachePath (fun s => s) "t" none "u") = false →
      ∃ m', putToMemory 2 (fun s => s) "u" ((some [9]).getD []) ([] : MemCache) = .ok m' ∧
        getOrCreateTempPath 2 (fun s => s) (fun _ => false) "t" "u" (some [9]) none ⟨[], []⟩ =
        (.ok (some (tempCachePath (fun s => s) "t" none "u")),
          ⟨m', tempCachePath (fun s => s) "t" none "u" :: []⟩)) := by
  refine ⟨by decide, by decide, by decide, ?_⟩
  exact ((c6_get_or_create_temp_path 2 (fun s => s) (fun _ => false) "t" "u"
    (some [9]) none ⟨[], []⟩ (by decide)).2.1 (by decide) (by decide)).2

/-! ### Screenshot generation and cropping (C9) -/

/-- C9: in both `_generate_screenshot` and
`_generate_screenshot_for_only_mode`, the crop step runs only when
cropping is enabled and capture returned truthy bytes (a `crop` trace
event implies both), and a crop exception never fails the operation: the
original uncropped bytes are returned. -/
theorem c9_crop_only_when_enabled_and_degrades (cfg : MHConfig) (o : Oracle)
    (url : String) :
    (∀ b, Ev.crop b ∈ (generateScreenshot cfg o url).2 →
      cfg.enableCrop = true ∧ o.captureScreenshot url = .ok (some b) ∧ b ≠ []) ∧
    (∀ b, Ev.crop b ∈ (generateScreenshotForOnlyMode cfg o url).2 →
      cfg.enableCrop = true ∧ o.captureScreenshot url = .ok (some b) ∧ b ≠ []) ∧
    (∀ b e, o.captureScreenshot url = .ok (some b) → b ≠ [] →
      cfg.enableCrop = true → o.cropScreenshot b cfg.cropArea = .error e →
      (¬(¬cfg.enableScreenshot ∨ cfg.sendContentType = "analysis_only") →
        (generateScreenshot cfg o url).1 = some b) ∧
      (cfg.enableScreenshot = true →
        (generateScreenshotForOnlyMode cfg o url).1 = some b)) := by
  refine ⟨?_, ?_, ?_⟩
  · intro b hb
    unfold generateScreenshot at hb
    split at hb
    · simp at hb
    · split at hb
      · simp at hb
      · rename_i scr _
        split at hb
        · rename_i hcond
          split at hb
          all_goals
            simp only [List.mem_cons, List.mem_singleton] at hb
            rcases hb with hb | hb | hb
            · exact absurd hb (by simp)
            · cases scr with
              | none => simp [bytesTruthy] at hcond
              | some bs =>
                simp only [Ev.crop.injEq, Option.getD] at hb
                subst hb
                refine ⟨hcond.1, by assumption, ?_⟩
                have := hcond.2
                simp [bytesTruthy] at this
                simpa using this
            · simp at hb
        · simp at hb
  · intro b hb
    unfold generateScreenshotForOnlyMode at hb
    split at hb
    · simp at hb
    · split at hb
      · simp at hb
      · rename_i scr _
        split at hb
        · rename_i hcond
          split at hb
          all_goals
            simp only [List.mem_cons, List.mem_singleton] at hb
            rcases hb with hb | hb | hb
            · exact absurd hb (by simp)
            · cases scr with
              | none => simp [bytesTruthy] at hcond
              | some bs =>
                simp only [Ev.crop.injEq, Option.getD] at hb
                subst hb
                refine ⟨hcond.1, by assumption, ?_⟩
                have := hcond.2
                simp [bytesTruthy] at this
                simpa using this
            · simp at hb
        · simp at hb
  · intro b e hcap hne hcrop hfail
    constructor
    · intro hgate
      unfold generateScreenshot
      rw [if_neg hgate, hcap]
      simp only
      rw [if_pos ⟨hcrop, by simp [bytesTruthy, hne]⟩]
      simp only [Option.getD, hfail]
    · intro hscr
      unfold generateScreenshotForOnlyMode
      rw [if_neg (by simp [hscr]), hcap]
      simp only
      rw [if_pos ⟨hcrop, by simp [bytesTruthy, hne]⟩]
      simp only [Option.getD, hfail]

/-- A concrete collaborator behaviour used by the witnesses: empty
cache, fetch yields nothing, capture returns one byte, crop raises. -/
def wOracle : Oracle where
  cacheGet := fun _ => .ok none
  cacheSet := fun _ => .ok ()
  cacheSetWithHash := fun _ _ => .ok ()
  diskRead := fun _ => .ok none
  aenter := .ok ()
  aexit := .ok ()
  fetchWebpage := fun _ => .ok none
  extractContent := fun _ _ => .ok none
  llmAnalyze := .ok none
  extractSpecific := fun _ _ _ => .ok none
  captureScreenshot := fun _ => .ok (some [9])
  cropScreenshot := fun _ _ => .error ⟨"Exception", "crop failed", false, false, false⟩

/-- A configuration with screenshots and cropping enabled, cache on,
content type `both`. -/
def wCfg : MHConfig :=
  ⟨true, true, "both", true, [0, 0, 100, 100], false, false, []⟩

/-- Witness for C9: capture returns `[9]`, crop raises, yet
`_generate_screenshot` returns the original `[9]`. -/
theorem c9_witness :
    wOracle.captureScreenshot "u" = .ok (some [9]) ∧
    ([9] : Bytes) ≠ [] ∧
    wCfg.enableCrop = true ∧
    wOracle.cropScreenshot [9] wCfg.cropArea =
      .error ⟨"Exception", "crop failed", false, false, false⟩ ∧
    (generateScreenshot wCfg wOracle "u").1 = some [9] := by
  refine ⟨rfl, by decide, rfl, rfl, ?_⟩
  exact ((c9_crop_only_when_enabled_and_degrades wCfg wOracle "u").2.2 [9]
    ⟨"Exception", "crop failed", false, false, false⟩ rfl (by decide) rfl rfl).1
    (by simp [wCfg])

/-! ### check_cache (C10) -/

/-- Internal consistency of a `check_cache` return value: for a built
result dictionary, the `has_screenshot` field agrees with the presence
of actual bytes in `screenshot`; the passed-through empty dictionary has
neither field, and non-dictionaries are outside the claim. -/
def checkOutConsistent : CheckOut → Bool
  | .outDict _ _ scr hs => hs == scr.isSome
  | _ => true

/-- C10: `check_cache` returns `None` whenever caching is disabled, every
successfully returned value is internally consistent
(`has_screenshot` true iff `screenshot` holds bytes), and in particular
an entry marked as having a screenshot whose bytes can be loaded neither
from memory nor from the disk companion file comes back with
`has_screenshot = False` and no bytes. -/
theorem c10_check_cache_consistency (cfg : MHConfig) (o : Oracle) (url : String) :
    (cfg.enableCache = false → checkCache cfg o url = (.ok .outNone, [])) ∧
    (∀ out t, checkCache cfg o url = (.ok out, t) → checkOutConsistent out = true) ∧
    (∀ d, cfg.enableCache = true →
      o.cacheGet (normalizeUrl url) = .ok (some (.cvDict d)) →
      d.hasScreenshot = true →
      (∀ b, d.screenshot ≠ .sBytes b) →
      loadScreenshotFromCache o (normalizeUrl url) = none →
      checkCache cfg o url =
        (.ok (.outDict url (cachedResultText d) none false),
          [.cacheGet (normalizeUrl url), .diskRead (normalizeUrl url)])) := by
  refine ⟨?_, ?_, ?_⟩
  · intro hc
    unfold checkCache
    rw [if_pos (by simp [hc])]
  · intro out t hcc
    unfold checkCache at hcc
    split at hcc
    · simp only [Prod.mk.injEq, Except.ok.injEq] at hcc
      rw [← hcc.1]
      rfl
    · split at hcc
      · simp at hcc
      · simp only [Prod.mk.injEq, Except.ok.injEq] at hcc
        rw [← hcc.1]
        rfl
      · simp only [Prod.mk.injEq, Except.ok.injEq] at hcc
        rw [← hcc.1]
        rfl
      · simp only [Prod.mk.injEq, Except.ok.injEq] at hcc
        rw [← hcc.1]
        rfl
      · split at hcc
        · split at hcc
          · simp only [Prod.mk.injEq, Except.ok.injEq] at hcc
            rw [← hcc.1]
            rfl
          · simp only [Prod.mk.injEq, Except.ok.injEq] at hcc
            rw [← hcc.1]
            simp [checkOutConsistent]
        · simp only [Prod.mk.injEq, Except.ok.injEq] at hcc
          rw [← hcc.1]
          rfl
  · intro d hc hget hmark hnb hload
    unfold checkCache
    rw [if_neg (by simp [hc]), hget]
    simp only [hmark, if_true]
    cases hscr : d.screenshot with
    | sBytes b => exact absurd hscr (hnb b)
    | sAbsent =>
      rw [hload]
      rfl
    | sNonBytes =>
      rw [hload]
      rfl

/-- Witness for C10: a cached entry marked `has_screenshot` with a
non-bytes screenshot value and no loadable disk bytes yields
`has_screenshot = False`, and disabling the cache yields `None`. -/
theorem c10_witness :
    ((⟨true, true, "both", true, [], false, false, []⟩ : MHConfig).enableCache = true) ∧
    ((wOracle.cacheGet (normalizeUrl "u") =
        .ok (some (.cvDict ⟨.rstr "r", true, .sNonBytes⟩))) →
      checkCache ⟨true, true, "both", true, [], false, false, []⟩ wOracle "u" =
        (.ok (.outDict "u" (cachedResultText ⟨.rstr "r", true, .sNonBytes⟩) none false),
          [.cacheGet (normalizeUrl "u"), .diskRead (normalizeUrl "u")])) ∧
    ((⟨false, true, "both", true, [], false, false, []⟩ : MHConfig).enableCache = false →
      checkCache ⟨false, true, "both", true, [], false, false, []⟩ wOracle "u" =
        (.ok .outNone, [])) := by
  refine ⟨rfl, ?_, ?_⟩
  · intro hget
    exact (c10_check_cache_consistency ⟨true, true, "both", true, [], false, false, []⟩
      wOracle "u").2.2 ⟨.rstr "r", true, .sNonBytes⟩ rfl hget rfl
      (by intro b hb; cases hb) rfl
  · intro hc
    exact (c10_check_cache_consistency ⟨false, true, "both", true, [], false, false, []⟩
      wOracle "u").1 hc

/-! ### Concurrency slot (C7) -/

/-- C7: `process_single_url` acquires exactly one concurrency slot before
doing any work and the `finally` block releases exactly that one slot on
every exit path — the screenshot-only short-circuit, the cache hit, the
full-analysis path and every exception path alike (the returned value is
quantified over every collaborator behaviour `o`) — so the semaphore's
available count after the call equals the count before it whenever the
caller held a granted slot (`1 ≤ sem`). -/
theorem c7_semaphore_balanced (cfg : MHConfig) (o : Oracle) (url : String)
    (sem : Nat) (hsem : 1 ≤ sem) :
    (processSingleUrl cfg o url sem).2.1 = sem := by
  unfold processSingleUrl
  simp only
  omega

/-- Witness for C7 at a concrete slot count. -/
theorem c7_witness : 1 ≤ 5 ∧ (processSingleUrl wCfg wOracle "u" 5).2.1 = 5 :=
  ⟨by decide, c7_semaphore_balanced wCfg wOracle "u" 5 (by decide)⟩

/-! ### process_single_url error handling (C1) -/

theorem checkCache_nonDict_source (cfg : MHConfig) (o : Oracle) (url : String)
    (b : Bool) (h : (checkCache cfg o url).1 = .ok (.outNonDict b)) :
    o.cacheGet (normalizeUrl url) = .ok (some (.cvOther b)) := by
  unfold checkCache at h
  split at h
  · simp at h
  · split at h
    · simp at h
    · simp at h
    · simp at h
    · rename_i t' heq
      simp only [Except.ok.injEq, CheckOut.outNonDict.injEq] at h
      rw [heq, h]
    · split at h
      · split at h
        · simp at h
        · simp at h
      · simp at h

theorem insideWith_netErr (cfg : MHConfig) (o : Oracle) (url : String)
    (hf : o.fetchWebpage url = .ok none ∨ o.fetchWebpage url = .ok (some "")) :
    (insideWith cfg o url).1 = .ok (netErrDict url) := by
  unfold insideWith
  rcases hf with hf | hf
  · rw [hf]
  · rw [hf]
    simp

theorem insideWith_parseErr (cfg : MHConfig) (o : Oracle) (url : String)
    (html : String) (hf : o.fetchWebpage url = .ok (some html)) (hne : html ≠ "")
    (hx : o.extractContent html url = .ok none) :
    (insideWith cfg o url).1 = .ok (parseErrDict url) := by
  unfold insideWith
  rw [hf]
  simp only [if_neg hne]
  rw [hx]

theorem fullModeBody_clean (cfg : MHConfig) (o : Oracle) (url : String)
    (haen : o.aenter = .ok ()) (haex : o.aexit = .ok ()) :
    fullModeBody cfg o url = insideWith cfg o url := by
  unfold fullModeBody
  rw [haen, haex]

theorem processBody_fullpath (cfg : MHConfig) (o : Oracle) (url : String)
    (out : CheckOut) (t : List Ev) (hsct : cfg.sendContentType ≠ "screenshot_only")
    (hcc : checkCache cfg o url = (.ok out, t))
    (htr : checkOutTruthy out = false) :
    (processBody cfg o url).1 =
      (match (fullModeBody cfg o url).1 with
        | .ok d => ProcOut.pdict d
        | .error e => ProcOut.pdict (catchDict url e)) := by
  have h1 : (checkCache cfg o url).1 = .ok out := by rw [hcc]
  unfold processBody
  rw [if_neg hsct, h1]
  cases out with
  | outNone =>
    cases hfb : (fullModeBody cfg o url).1 with
    | ok d => rfl
    | error e => rfl
  | outEmptyDict =>
    cases hfb : (fullModeBody cfg o url).1 with
    | ok d => rfl
    | error e => rfl
  | outNonDict b =>
    cases b with
    | true => simp [checkOutTruthy] at htr
    | false =>
      cases hfb : (fullModeBody cfg o url).1 with
      | ok d => rfl
      | error e => rfl
  | outDict u rr sc hs => simp [checkOutTruthy] at htr

/-- C1: for every behaviour of the collaborators (each of which may
raise), `process_single_url` hands back a result dictionary and never
propagates an exception — given a cache backend that stores
dictionaries, its return value is always a `pdict`; a fetch yielding no
HTML produces the network-error message with screenshot `None`; a failed
extraction produces the parsing-error message; a cache-backend exception
during `check_cache` and any exception escaping the `async with` block
are converted by `ErrorHandler.get_error_type`/`handle_error` into the
formatted catch-all error dictionary. -/
theorem c1_pipeline_error_handling (cfg : MHConfig) (o : Oracle) (url : String)
    (sem : Nat) (hwb : ∀ k, o.cacheGet k ≠ .ok (some (.cvOther true))) :
    (∃ d, (processSingleUrl cfg o url sem).1 = .pdict d) ∧
    (∀ out t, cfg.sendContentType ≠ "screenshot_only" →
      checkCache cfg o url = (.ok out, t) → checkOutTruthy out = false →
      o.aenter = .ok () → o.aexit = .ok () →
      (o.fetchWebpage url = .ok none ∨ o.fetchWebpage url = .ok (some "")) →
      (processSingleUrl cfg o url sem).1 = .pdict (netErrDict url)) ∧
    (∀ out t html, cfg.sendContentType ≠ "screenshot_only" →
      checkCache cfg o url = (.ok out, t) → checkOutTruthy out = false →
      o.aenter = .ok () → o.aexit = .ok () →
      o.fetchWebpage url = .ok (some html) → html ≠ "" →
      o.extractContent html url = .ok none →
      (processSingleUrl cfg o url sem).1 = .pdict (parseErrDict url)) ∧
    (∀ e, cfg.sendContentType ≠ "screenshot_only" →
      (checkCache cfg o url).1 = .error e →
      (processSingleUrl cfg o url sem).1 = .pdict (catchDict url e)) ∧
    (∀ out t e, cfg.sendContentType ≠ "screenshot_only" →
      checkCache cfg o url = (.ok out, t) → checkOutTruthy out = false →
      (fullModeBody cfg o url).1 = .error e →
      (processSingleUrl cfg o url sem).1 = .pdict (catchDict url e)) := by
  have hbody : (processSingleUrl cfg o url sem).1 = (processBody cfg o url).1 := rfl
  refine ⟨?_, ?_, ?_, ?_, ?_⟩
  · rw [hbody]
    unfold processBody
    split
    · exact ⟨_, rfl⟩
    · split
      · exact ⟨_, rfl⟩
      · exact ⟨_, rfl⟩
      · rename_i heq
        exact absurd (checkCache_nonDict_source cfg o url true heq)
          (hwb (normalizeUrl url))
      · split
        · exact ⟨_, rfl⟩
        · exact ⟨_, rfl⟩
  · intro out t hsct hcc htr haen haex hf
    rw [hbody, processBody_fullpath cfg o url out t hsct hcc htr,
      fullModeBody_clean cfg o url haen haex, insideWith_netErr cfg o url hf]
  · intro out t html hsct hcc htr haen haex hf hne hx
    rw [hbody, processBody_fullpath cfg o url out t hsct hcc htr,
      fullModeBody_clean cfg o url haen haex,
      insideWith_parseErr cfg o url html hf hne hx]
  · intro e hsct hcc
    rw [hbody]
    unfold processBody
    rw [if_neg hsct, hcc]
  · intro out t e hsct hcc htr hfb
    rw [hbody, processBody_fullpath cfg o url out t hsct hcc htr, hfb]

/-- Witness for C1: a well-behaved cache, fetch yielding no HTML; the
call returns the network-error dictionary. -/
theorem c1_witness :
    (∀ k, wOracle.cacheGet k ≠ .ok (some (.cvOther true))) ∧
    (processSingleUrl wCfg wOracle "u" 5).1 = .pdict (netErrDict "u") := by
  have hwb : ∀ k, wOracle.cacheGet k ≠ .ok (some (.cvOther true)) := by
    intro k
    simp [wOracle]
  refine ⟨hwb, ?_⟩
  exact (c1_pipeline_error_handling wCfg wOracle "u" 5 hwb).2.1 .outNone
    [.cacheGet (normalizeUrl "u")] (by decide) rfl rfl rfl rfl (Or.inl rfl)

/-! ### The spec-modelled URL normalizer (supporting C8) -/

theorem string_ext_data (a b : String) (h : a.data = b.data) : a = b := by
  cases a
  cases b
  exact congrArg String.mk h

theorem charOfNatToNat (n : Nat) (h : n.isValidChar) : (Char.ofNat n).toNat = n := by
  simp [Char.ofNat, h, Char.ofNatAux, Char.toNat, UInt32.toNat, BitVec.toNat_ofNatLt]

theorem asciiLower_upper_toNat (c : Char) (h1 : 65 ≤ c.toNat) (h2 : c.toNat ≤ 90) :
    (asciiLower c).toNat = c.toNat + 32 := by
  unfold asciiLower
  rw [if_pos ⟨h1, h2⟩]
  exact charOfNatToNat (c.toNat + 32) (Or.inl (by omega))

theorem asciiLower_idem (c : Char) : asciiLower (asciiLower c) = asciiLower c := by
  by_cases h : 65 ≤ c.toNat ∧ c.toNat ≤ 90
  · have ht : (asciiLower c).toNat = c.toNat + 32 := asciiLower_upper_toNat c h.1 h.2
    unfold asciiLower
    rw [if_neg ?_]
    unfold asciiLower at ht
    omega
  · unfold asciiLower
    rw [if_neg h, if_neg h]

theorem asciiLower_ne_slash (c : Char) (h : c ≠ '/') : asciiLower c ≠ '/' := by
  by_cases hr : 65 ≤ c.toNat ∧ c.toNat ≤ 90
  · intro hc
    have := asciiLower_upper_toNat c hr.1 hr.2
    rw [hc] at this
    have h47 : ('/').toNat = 47 := rfl
    omega
  · unfold asciiLower
    rw [if_neg hr]
    exact h

theorem lowerHostPart_cons (n : Nat) (c : Char) (cs : List Char) :
    lowerHostPart n (c :: cs) =
      if c = '/' then (if 3 ≤ n + 1 then c :: cs else c :: lowerHostPart (n + 1) cs)
      else asciiLower c :: lowerHostPart n cs := rfl

theorem lowerHostPart_idem (n : Nat) (s : List Char) :
    lowerHostPart n (lowerHostPart n s) = lowerHostPart n s := by
  induction s generalizing n with
  | nil => rfl
  | cons c cs ih =>
    by_cases hc : c = '/'
    · subst hc
      by_cases h3 : 3 ≤ n + 1
      · have h1 : lowerHostPart n ('/' :: cs) = '/' :: cs := by
          rw [lowerHostPart_cons, if_pos rfl, if_pos h3]
        rw [h1, h1]
      · have h1 : lowerHostPart n ('/' :: cs) = '/' :: lowerHostPart (n + 1) cs := by
          rw [lowerHostPart_cons, if_pos rfl, if_neg h3]
        rw [h1, lowerHostPart_cons, if_pos rfl, if_neg h3, ih (n + 1)]
    · have h1 : lowerHostPart n (c :: cs) = asciiLower c :: lowerHostPart n cs := by
        rw [lowerHostPart_cons, if_neg hc]
      rw [h1, lowerHostPart_cons, if_neg (asciiLower_ne_slash c hc), asciiLower_idem,
        ih n]

theorem lowerHostPart_lower_noslash (t : List Char)
    (h : ∀ c ∈ t, c ≠ '/' ∧ asciiLower c = c) (m : Nat) :
    lowerHostPart m t = t := by
  induction t generalizing m with
  | nil => rfl
  | cons c cs ih =>
    have hc := h c (by simp)
    rw [lowerHostPart_cons, if_neg hc.1, hc.2, ih (fun x hx => h x (by simp [hx])) m]

theorem lowerHostPart_fixed_append (n : Nat) (s t : List Char)
    (hs : lowerHostPart n s = s) (ht : ∀ m, lowerHostPart m t = t) :
    lowerHostPart n (s ++ t) = s ++ t := by
  induction s generalizing n with
  | nil => simpa using ht n
  | cons c cs ih =>
    by_cases hc : c = '/'
    · subst hc
      rw [lowerHostPart_cons, if_pos rfl] at hs
      rw [List.cons_append, lowerHostPart_cons, if_pos rfl]
      by_cases h3 : 3 ≤ n + 1
      · rw [if_pos h3]
      · rw [if_neg h3] at hs
        simp only [List.cons.injEq, true_and] at hs
        rw [if_neg h3, ih (n + 1) hs]
    · rw [lowerHostPart_cons, if_neg hc] at hs
      simp only [List.cons.injEq] at hs
      rw [List.cons_append, lowerHostPart_cons, if_neg hc, hs.1, ih n hs.2]

theorem suffix_chars_lower_noslash :
    ∀ c ∈ screenshotOnlySuffix.data, c ≠ '/' ∧ asciiLower c = c := by
  decide

theorem normalizeUrl_idem (s : String) :
    normalizeUrl (normalizeUrl s) = normalizeUrl s := by
  unfold normalizeUrl
  exact congrArg String.mk (lowerHostPart_idem 0 s.data)

/-- Re-normalizing the suffixed screenshot-only cache key leaves it
unchanged: the key `update_cache` writes equals the key
`_process_screenshot_only` reads. -/
theorem normalizeUrl_screenshotOnlyKey (url : String) :
    normalizeUrl (screenshotOnlyKey url) = screenshotOnlyKey url := by
  unfold screenshotOnlyKey normalizeUrl
  refine string_ext_data _ _ ?_
  rw [String.data_append]
  simp only
  exact lowerHostPart_fixed_append 0 (lowerHostPart 0 url.data)
    screenshotOnlySuffix.data (lowerHostPart_idem 0 url.data)
    (lowerHostPart_lower_noslash screenshotOnlySuffix.data suffix_chars_lower_noslash)

/-- The screenshot-only cache key never equals the full-analysis cache
key of the same URL: the nonempty suffix changes the length. -/
theorem screenshotOnlyKey_ne_normalized (url : String) :
    screenshotOnlyKey url ≠ normalizeUrl url := by
  intro h
  have hl := congrArg String.length h
  rw [screenshotOnlyKey, String.length_append] at hl
  have : screenshotOnlySuffix.length = 16 := by decide
  omega

/-! ### Screenshot-only isolation (C8) -/

/-- The property C8 asserts of every collaborator call made in
screenshot-only mode: no fetch, extract or LLM call at all, and every
cache read or write at exactly the suffixed screenshot-only key. -/
def c8EvOK (url : String) : Ev → Prop
  | .fetch _ => False
  | .extract _ => False
  | .llm => False
  | .cacheGet k => k = screenshotOnlyKey url
  | .cacheSet k => k = screenshotOnlyKey url
  | _ => True

/-- Every cache read or write of the full-analysis path uses the plain
normalized URL as its key. -/
def evFullKeyOK (url : String) : Ev → Prop
  | .cacheGet k => k = normalizeUrl url
  | .cacheSet k => k = normalizeUrl url
  | _ => True

theorem updateCache_trace (cfg : MHConfig) (o : Oracle) (u : String)
    (content : Option String) (ev : Ev)
    (hev : ev ∈ (updateCache cfg o u content).2) :
    ev = .cacheSet (normalizeUrl u) := by
  unfold updateCache at hev
  split at hev
  · simp at hev
  · split at hev
    · simpa using hev
    · simpa using hev

theorem generateScreenshot_trace (cfg : MHConfig) (o : Oracle) (url : String)
    (ev : Ev) (hev : ev ∈ (generateScreenshot cfg o url).2) :
    ev = .capture url ∨ ∃ b, ev = .crop b := by
  unfold generateScreenshot at hev
  split at hev
  · simp at hev
  · split at hev
    · simp only [List.mem_singleton] at hev
      exact Or.inl hev
    · split at hev
      · split at hev
        all_goals
          simp only [List.mem_cons, List.mem_singleton] at hev
          rcases hev with hev | hev | hev
          · exact Or.inl hev
          · exact Or.inr ⟨_, hev⟩
          · simp at hev
      · simp only [List.mem_singleton] at hev
        exact Or.inl hev

theorem generateScreenshotForOnlyMode_trace (cfg : MHConfig) (o : Oracle)
    (url : String) (ev : Ev)
    (hev : ev ∈ (generateScreenshotForOnlyMode cfg o url).2) :
    ev = .capture url ∨ ∃ b, ev = .crop b := by
  unfold generateScreenshotForOnlyMode at hev
  split at hev
  · simp at hev
  · split at hev
    · simp only [List.mem_singleton] at hev
      exact Or.inl hev
    · split at hev
      · split at hev
        all_goals
          simp only [List.mem_cons, List.mem_singleton] at hev
          rcases hev with hev | hev | hev
          · exact Or.inl hev
          · exact Or.inr ⟨_, hev⟩
          · simp at hev
      · simp only [List.mem_singleton] at hev
        exact Or.inl hev

theorem analyzeContent_trace (cfg : MHConfig) (o : Oracle) (cd : ContentData)
    (ev : Ev) (hev : ev ∈ (analyzeContent cfg o cd).2) : ev = .llm := by
  unfold analyzeContent at hev
  split at hev
  · split at hev
    · simpa using hev
    · split at hev
      · simpa using hev
      · simpa using hev
  · simp at hev

theorem extractAndAddSpecific_trace (cfg : MHConfig) (o : Oracle)
    (analysis html url : String) (ev : Ev)
    (hev : ev ∈ (extractAndAddSpecific cfg o analysis html url).2) :
    ev = .specific := by
  unfold extractAndAddSpecific at hev
  split at hev
  · simpa using hev
  · simpa using hev
  · simpa using hev

theorem analysisTrace_mem (cfg : MHConfig) (o : Oracle) (cd : ContentData)
    (html url : String) (ev : Ev)
    (hev : ev ∈ analysisTrace cfg o cd html url) :
    ev = .llm ∨ ev = .specific := by
  unfold analysisTrace at hev
  rw [List.mem_append] at hev
  rcases hev with hev | hev
  · exact Or.inl (analyzeContent_trace cfg o cd ev hev)
  · split at hev
    · exact Or.inr (extractAndAddSpecific_trace cfg o _ html url ev hev)
    · simp at hev

theorem checkCache_trace (cfg : MHConfig) (o : Oracle) (url : String)
    (ev : Ev) (hev : ev ∈ (checkCache cfg o url).2) :
    ev = .cacheGet (normalizeUrl url) ∨ ev = .diskRead (normalizeUrl url) := by
  unfold checkCache at hev
  split at hev
  · simp at hev
  · split at hev
    · simp only [List.mem_singleton] at hev
      exact Or.inl hev
    · simp only [List.mem_singleton] at hev
      exact Or.inl hev
    · simp only [List.mem_singleton] at hev
      exact Or.inl hev
    · simp only [List.mem_singleton] at hev
      exact Or.inl hev
    · split at hev
      · split at hev
        · simp only [List.mem_singleton] at hev
          exact Or.inl hev
        · simp only [List.mem_cons, List.mem_singleton] at hev
          rcases hev with hev | hev | hev
          · exact Or.inl hev
          · exact Or.inr hev
          · simp at hev
      · simp only [List.mem_singleton] at hev
        exact Or.inl hev

theorem onlyGenerate_evOK (cfg : MHConfig) (o : Oracle) (url : String)
    (t0 : List Ev) (ht0 : ∀ ev ∈ t0, c8EvOK url ev) (ev : Ev)
    (hev : ev ∈ (onlyGenerate cfg o url t0).2) : c8EvOK url ev := by
  have hgen : ∀ ev ∈ (generateScreenshotForOnlyMode cfg o url).2, c8EvOK url ev := by
    intro ev2 hev2
    rcases generateScreenshotForOnlyMode_trace cfg o url ev2 hev2 with h | ⟨b, h⟩
    · subst h; trivial
    · subst h; trivial
  have hupd : ∀ ev ∈ (updateCache cfg o (screenshotOnlyKey url) none).2,
      c8EvOK url ev := by
    intro ev2 hev2
    have := updateCache_trace cfg o (screenshotOnlyKey url) none ev2 hev2
    subst this
    show normalizeUrl (screenshotOnlyKey url) = screenshotOnlyKey url
    exact normalizeUrl_screenshotOnlyKey url
  unfold onlyGenerate at hev
  split at hev
  · split at hev
    all_goals
      simp only [List.mem_append] at hev
      rcases hev with (hev | hev) | hev
      · exact ht0 ev hev
      · exact hgen ev hev
      · exact hupd ev hev
  · simp only [List.mem_append] at hev
    rcases hev with hev | hev
    · exact ht0 ev hev
    · exact hgen ev hev

theorem onlyBody_evOK (cfg : MHConfig) (o : Oracle) (url : String) (ev : Ev)
    (hev : ev ∈ (onlyBody cfg o url).2) : c8EvOK url ev := by
  unfold onlyBody at hev
  split at hev
  · split at hev
    · simp only [List.mem_singleton] at hev
      subst hev
      show screenshotOnlyKey url = screenshotOnlyKey url
      rfl
    · split at hev
      · simp only [List.mem_singleton] at hev
        subst hev
        show screenshotOnlyKey url = screenshotOnlyKey url
        rfl
      · split at hev
        · split at hev
          · exact onlyGenerate_evOK cfg o url _ (by
              intro ev2 hev2
              simp only [List.mem_cons, List.mem_singleton] at hev2
              rcases hev2 with h | h | h
              · subst h
                show screenshotOnlyKey url = screenshotOnlyKey url
                rfl
              · subst h; trivial
              · simp at h) ev hev
          · simp only [List.mem_cons, List.mem_singleton] at hev
            rcases hev with hev | hev | hev
            · subst hev
              show screenshotOnlyKey url = screenshotOnlyKey url
              rfl
            · subst hev; trivial
            · simp at hev
        · exact onlyGenerate_evOK cfg o url _ (by
            intro ev2 hev2
            simp only [List.mem_cons, List.mem_singleton] at hev2
            rcases hev2 with h | h | h
            · subst h
              show screenshotOnlyKey url = screenshotOnlyKey url
              rfl
            · subst h; trivial
            · simp at h) ev hev
    · exact onlyGenerate_evOK cfg o url _ (by
        intro ev2 hev2
        simp only [List.mem_singleton] at hev2
        subst hev2
        show screenshotOnlyKey url = screenshotOnlyKey url
        rfl) ev hev
  · exact onlyGenerate_evOK cfg o url [] (by simp) ev hev

theorem processScreenshotOnly_trace_eq (cfg : MHConfig) (o : Oracle)
    (url : String) :
    (processScreenshotOnly cfg o url).2 = (onlyBody cfg o url).2 := by
  unfold processScreenshotOnly
  cases (onlyBody cfg o url).1 with
  | ok d => rfl
  | error e => rfl

theorem insideWith_evFullOK (cfg : MHConfig) (o : Oracle) (url : String)
    (ev : Ev) (hev : ev ∈ (insideWith cfg o url).2) : evFullKeyOK url ev := by
  have hgen : ∀ ev2 ∈ (generateScreenshot cfg o url).2, evFullKeyOK url ev2 := by
    intro ev2 hev2
    rcases generateScreenshot_trace cfg o url ev2 hev2 with h | ⟨b, h⟩
    · subst h; trivial
    · subst h; trivial
  have hana : ∀ (cd : ContentData) (html : String),
      ∀ ev2 ∈ analysisTrace cfg o cd html url, evFullKeyOK url ev2 := by
    intro cd html ev2 hev2
    rcases analysisTrace_mem cfg o cd html url ev2 hev2 with h | h
    · subst h; trivial
    · subst h; trivial
  have hupd : ∀ (cont : String),
      ∀ ev2 ∈ (updateCache cfg o url (some cont)).2, evFullKeyOK url ev2 := by
    intro cont ev2 hev2
    have := updateCache_trace cfg o url (some cont) ev2 hev2
    subst this
    show normalizeUrl url = normalizeUrl url
    rfl
  unfold insideWith at hev
  split at hev
  · simp only [List.mem_singleton] at hev
    subst hev; trivial
  · simp only [List.mem_singleton] at hev
    subst hev; trivial
  · split at hev
    · simp only [List.mem_singleton] at hev
      subst hev; trivial
    · split at hev
      · simp only [List.mem_cons, List.mem_singleton] at hev
        rcases hev with hev | hev | hev
        · subst hev; trivial
        · subst hev; trivial
        · simp at hev
      · simp only [List.mem_cons, List.mem_singleton] at hev
        rcases hev with hev | hev | hev
        · subst hev; trivial
        · subst hev; trivial
        · simp at hev
      · split at hev
        · simp only [List.mem_append, List.mem_cons, List.mem_singleton] at hev
          rcases hev with ((hev | hev | hev) | hev) | hev
          · subst hev; trivial
          · subst hev; trivial
          · simp at hev
          · exact hana _ _ ev hev
          · exact hgen ev hev
        · split at hev
          all_goals
            simp only [List.mem_append, List.mem_cons, List.mem_singleton] at hev
            rcases hev with (((hev | hev | hev) | hev) | hev) | hev
            · subst hev; trivial
            · subst hev; trivial
            · simp at hev
            · exact hana _ _ ev hev
            · exact hgen ev hev
            · exact hupd _ ev hev

theorem fullModeBody_trace_sub (cfg : MHConfig) (o : Oracle) (url : String)
    (ev : Ev) (hev : ev ∈ (fullModeBody cfg o url).2) :
    ev ∈ (insideWith cfg o url).2 := by
  unfold fullModeBody at hev
  split at hev
  · simp at hev
  · split at hev
    · exact hev
    · exact hev

theorem processBody_evFullOK (cfg : MHConfig) (o : Oracle) (url : String)
    (hsct : cfg.sendContentType ≠ "screenshot_only") (ev : Ev)
    (hev : ev ∈ (processBody cfg o url).2) : evFullKeyOK url ev := by
  have hcc : ∀ ev2 ∈ (checkCache cfg o url).2, evFullKeyOK url ev2 := by
    intro ev2 hev2
    rcases checkCache_trace cfg o url ev2 hev2 with h | h
    · subst h
      show normalizeUrl url = normalizeUrl url
      rfl
    · subst h; trivial
  have hfm : ∀ ev2 ∈ (fullModeBody cfg o url).2, evFullKeyOK url ev2 := by
    intro ev2 hev2
    exact insideWith_evFullOK cfg o url ev2 (fullModeBody_trace_sub cfg o url ev2 hev2)
  unfold processBody at hev
  rw [if_neg hsct] at hev
  split at hev
  · exact hcc ev hev
  · exact hcc ev hev
  · exact hcc ev hev
  · split at hev
    all_goals
      rw [List.mem_append] at hev
      rcases hev with hev | hev
      · exact hcc ev hev
      · exact hfm ev hev

/-- C8: when `send_content_type` is `screenshot_only`, a
`process_single_url` call never invokes `fetch_webpage`,
`extract_content` or the LLM analyzer, and every cache key it reads or
writes is the normalized URL suffixed with `"_screenshot_only"` (the
write key survives the re-normalization inside `update_cache`); that key
never equals the normalized-URL cache key that every full-analysis read
and write of the same URL uses. -/
theorem c8_screenshot_only_short_circuit (cfg : MHConfig) (o : Oracle)
    (url : String) (sem : Nat)
    (hmode : cfg.sendContentType = "screenshot_only") :
    (∀ ev ∈ (processSingleUrl cfg o url sem).2.2, c8EvOK url ev) ∧
    screenshotOnlyKey url ≠ normalizeUrl url ∧
    (∀ (cfg₂ : MHConfig) (o₂ : Oracle) (sem₂ : Nat),
      cfg₂.sendContentType ≠ "screenshot_only" →
      ∀ ev ∈ (processSingleUrl cfg₂ o₂ url sem₂).2.2, evFullKeyOK url ev) := by
  refine ⟨?_, screenshotOnlyKey_ne_normalized url, ?_⟩
  · intro ev hev
    have htr : (processSingleUrl cfg o url sem).2.2 = (processBody cfg o url).2 := rfl
    rw [htr] at hev
    unfold processBody at hev
    rw [if_pos hmode] at hev
    rw [processScreenshotOnly_trace_eq cfg o url] at hev
    exact onlyBody_evOK cfg o url ev hev
  · intro cfg₂ o₂ sem₂ hsct ev hev
    have htr : (processSingleUrl cfg₂ o₂ url sem₂).2.2 = (processBody cfg₂ o₂ url).2 := rfl
    rw [htr] at hev
    exact processBody_evFullOK cfg₂ o₂ url hsct ev hev

/-- Witness for C8: in screenshot-only mode with the concrete
collaborators, all events are permitted ones and the keys differ. -/
theorem c8_witness :
    ((⟨true, true, "screenshot_only", true, [], false, false, []⟩ : MHConfig).sendContentType =
      "screenshot_only") ∧
    (∀ ev ∈ (processSingleUrl ⟨true, true, "screenshot_only", true, [], false, false, []⟩
        wOracle "u" 5).2.2, c8EvOK "u" ev) ∧
    screenshotOnlyKey "u" ≠ normalizeUrl "u" := by
  refine ⟨rfl, ?_, ?_⟩
  · exact (c8_screenshot_only_short_circuit
      ⟨true, true, "screenshot_only", true, [], false, false, []⟩ wOracle "u" 5 rfl).1
  · exact (c8_screenshot_only_short_circuit
      ⟨true, true, "screenshot_only", true, [], false, false, []⟩ wOracle "u" 5 rfl).2.1
